import Mathlib

/-!
# d_tree.c : the per-entry visit actions and the command-line dispatch

A shallow embedding of `src/d_tree.c`.

* A C string is the list of its characters (the terminating NUL is implicit).
* `off_t` is a signed 64-bit integer; `total_size += st_size` is modelled with
  two-complement wrap-around, so the accumulator always is an `off_t` value.
* The operating system is an explicit parameter: every system call whose outcome the
  code cannot determine (`open`, `read`, `write`, `remove`, `nftw`) takes its outcome from
  an environment value, and the calls issued are recorded in a trace.
* `nftw` itself is library code: a walk is the sequence of entries it visits, and the
  callback is applied to them in order until one returns non-zero.
-/

set_option autoImplicit false

namespace DTree

/-! ## Data model -/

/-- C string: the characters before the terminating NUL. -/
abbrev CStr := List Char

/-- One byte of file content. -/
abbrev Byte := Nat

/-- The constant `MAX_PATH` of the source. -/
def MAX_PATH : Nat := 1024

/-- The type flags `nftw` hands to a callback. -/
inductive TypeFlag where
  | FTW_F
  | FTW_D
  | FTW_DNR
  | FTW_NS
  | FTW_SL
  | FTW_DP
  | FTW_SLN
  deriving DecidableEq

open TypeFlag

/-- The fields of `struct stat` the callbacks read. -/
structure Stat where
  st_size : Int
  st_mode : Nat
  deriving DecidableEq

/-- One visited entry: the three arguments `nftw` passes to the callback that the callbacks use. -/
structure Entry where
  path : CStr
  sb : Stat
  typeflag : TypeFlag
  deriving DecidableEq

/-- The global variables of the program. -/
structure Globals where
  file_count : Int
  dir_count : Int
  total_size : Int
  search_ext : Option CStr
  exclude_ext : Option CStr
  dest_root : CStr
  src_root : CStr

/-- The initial values of the globals (zero / NULL / empty buffers). -/
def Globals.init : Globals :=
  { file_count := 0, dir_count := 0, total_size := 0, search_ext := none,
    exclude_ext := none, dest_root := [], src_root := [] }

/-! ## C library functions used by the callbacks -/

/-- The call `strrchr(s, c)` for a non-NUL `c`: the suffix of `s` that starts at the last
occurrence of `c`, or `none` (NULL) when `c` does not occur. -/
def strrchr : CStr → Char → Option CStr
  | [], _ => none
  | x :: xs, c =>
    match strrchr xs c with
    | some r => some r
    | none => if x = c then some (x :: xs) else none

/-- The call `strcmp(a, b)`: zero for equal strings, otherwise the sign of the first
difference (a proper prefix compares smaller). -/
def strcmp : CStr → CStr → Int
  | [], [] => 0
  | [], _ :: _ => -1
  | _ :: _, [] => 1
  | x :: xs, y :: ys =>
    if x = y then strcmp xs ys else if x.toNat < y.toNat then -1 else 1

/-- The call `snprintf(buf, size, "%s%s", a, b)`: the buffer receives at most `size - 1`
characters of the concatenation. -/
def snprintf_ss (size : Nat) (a b : CStr) : CStr :=
  (a ++ b).take (size - 1)

/-- The property "the substring of `p` that starts at its last `.` is `E`". -/
def LastDotSuffix (p E : CStr) : Prop :=
  ∃ pre rest, p = pre ++ '.' :: rest ∧ '.' ∉ rest ∧ E = '.' :: rest

/-! ## construct_dest_path -/

/-- The function `construct_dest_path`: `dest_root` followed by `src_path + strlen(src_root)`,
cut to the buffer. The pointer `src_path + strlen(src_root)` lies outside the string when
`src_path` is shorter than `src_root`; that case has no defined result (`none`). -/
def construct_dest_path (g : Globals) (src_path : CStr) : Option CStr :=
  if g.src_root.length ≤ src_path.length then
    some (snprintf_ss MAX_PATH g.dest_root (src_path.drop g.src_root.length))
  else
    none

/-! ## The callbacks that only report or count -/

/-- What a reporting callback yields: its return value, the globals after the call and the
lines it printed on standard output. -/
structure CbResult where
  ret : Int
  globals : Globals
  out : List CStr

/-- The callback `list_callback`. -/
def list_callback (g : Globals) (e : Entry) : CbResult :=
  { ret := 0, globals := g, out := [e.path] }

/-- The callback `count_files_callback`. -/
def count_files_callback (g : Globals) (e : Entry) : CbResult :=
  { ret := 0
    globals := if e.typeflag = FTW_F then { g with file_count := g.file_count + 1 } else g
    out := [] }

/-- The callback `count_dirs_callback`. -/
def count_dirs_callback (g : Globals) (e : Entry) : CbResult :=
  { ret := 0
    globals := if e.typeflag = FTW_D then { g with dir_count := g.dir_count + 1 } else g
    out := [] }

/-- Reduction of an integer to the range of `off_t`, `[-2^63, 2^63)`. -/
def wrap_off_t (x : Int) : Int :=
  (x + 2 ^ 63) % 2 ^ 64 - 2 ^ 63

/-- The callback `size_callback`. -/
def size_callback (g : Globals) (e : Entry) : CbResult :=
  { ret := 0
    globals :=
      if e.typeflag = FTW_F then
        { g with total_size := wrap_off_t (g.total_size + e.sb.st_size) }
      else g
    out := [] }

/-- The callback `ext_callback`. -/
def ext_callback (g : Globals) (e : Entry) : CbResult :=
  { ret := 0
    globals := g
    out :=
      match e.typeflag, g.search_ext with
      | FTW_F, some s =>
        match strrchr e.path '.' with
        | some ext => if strcmp ext s = 0 then [e.path] else []
        | none => []
      | _, _ => [] }

/-! ## System calls and their outcomes -/

/-- The system calls (and `perror` reports) a callback issues, in program order. A `mkdir`
carries the value it returned; an `open` carries the descriptor it returned (`none` when it
failed); a `read` carries what it returned (`none` for the error value `-1`, otherwise the bytes placed in the buffer); a
`write` carries the bytes it was handed. -/
inductive Syscall where
  | remove (path : CStr)
  | mkdir (path : CStr) (mode : Nat) (ret : Int)
  | open_rdonly (path : CStr) (fd : Option Nat)
  | open_creat_trunc (path : CStr) (mode : Nat) (fd : Option Nat)
  | read (fd : Nat) (result : Option (List Byte))
  | write (fd : Nat) (buf : List Byte)
  | close (fd : Nat)
  | perror (msg : CStr)
  | rename (old new : CStr)
  deriving DecidableEq

/-! ## delete_callback -/

/-- State threaded through a deleting walk: the entries present in the tree, the system
calls issued so far and the lines printed so far. -/
structure DelState where
  tree : List Entry
  trace : List Syscall
  out : List CStr

/-- Effect of `remove(p)` on the tree: when the operating system lets the call succeed the
entry of that path is gone, otherwise nothing changes. -/
def sys_remove (removable : CStr → Bool) (p : CStr) (tree : List Entry) : List Entry :=
  if removable p then tree.filter (fun e => e.path ≠ p) else tree

/-- The confirmation line `Deleted: <path>`. -/
def deleted_line (path : CStr) : CStr :=
  ['D', 'e', 'l', 'e', 't', 'e', 'd', ':', ' '] ++ path

/-- The callback `delete_callback`. The return value of `remove` is discarded. -/
def delete_callback (g : Globals) (removable : CStr → Bool) (s : DelState) (e : Entry) :
    Int × DelState :=
  match e.typeflag, g.search_ext with
  | FTW_F, some x =>
    match strrchr e.path '.' with
    | some ext =>
      if strcmp ext x = 0 then
        (0, { tree := sys_remove removable e.path s.tree
              trace := s.trace ++ [Syscall.remove e.path]
              out := s.out ++ [deleted_line e.path] })
      else (0, s)
    | none => (0, s)
  | _, _ => (0, s)

/-! ## copy_callback -/

/-- Size of the copy buffer, `sizeof(buffer)`. -/
def BUFFER_SIZE : Nat := 4096

/-- Outcomes the operating system decides during one call of `copy_callback`.
* `mkdir_ret`: what `mkdir` returns (`-1` for instance when the directory exists), a value
  the code does not look at;
* `open_src`: `open(path, O_RDONLY)`, `none` when it fails, else the descriptor and the
  bytes of the file;
* `open_dest`: `open(dest_path, O_WRONLY | O_CREAT | O_TRUNC, mode)`, `none` when it fails;
* `read_avail i`: the `i`-th `read`, `none` when it fails, else how many bytes the kernel
  is willing to hand over at once (at least one and at most the buffer size are taken);
* `write_done i`: the `i`-th `write`, `none` when all bytes are written, else the number of
  bytes that reach the file (`some 0` covers a failed write). -/
structure CopyEnv where
  mkdir_ret : Int
  open_src : Option (Nat × List Byte)
  open_dest : Option Nat
  read_avail : Nat → Option Nat
  write_done : Nat → Option Nat

/-- The call `read(src_fd, buffer, sizeof(buffer))` with `rest` the bytes after the file
offset: `none` is the error value, `some bs` the bytes read (`[]` at end of file). -/
def sys_read (env : CopyEnv) (i : Nat) (rest : List Byte) : Option (List Byte) :=
  match env.read_avail i with
  | none => none
  | some k => some (rest.take (min (max k 1) BUFFER_SIZE))

/-- The bytes of `buf` that the `i`-th `write` appends to the file. -/
def sys_write (env : CopyEnv) (i : Nat) (buf : List Byte) : List Byte :=
  match env.write_done i with
  | none => buf
  | some k => buf.take k

/-- State of the copy loop: calls issued so far and the content of the destination file. -/
structure CopyState where
  trace : List Syscall
  dest : List Byte

/-- The loop `while ((bytes = read(...)) > 0) write(dest_fd, buffer, bytes);`, `i` counting
the iterations and `rest` being the unread part of the source. The first argument bounds
the number of iterations; `none` means the bound was reached. -/
def copy_loop (env : CopyEnv) (src_fd dest_fd : Nat) :
    Nat → Nat → List Byte → CopyState → Option CopyState
  | 0, _, _, _ => none
  | fuel + 1, i, rest, s =>
    match sys_read env i rest with
    | none => some { s with trace := s.trace ++ [Syscall.read src_fd none] }
    | some [] => some { s with trace := s.trace ++ [Syscall.read src_fd (some [])] }
    | some (b :: bs) =>
      copy_loop env src_fd dest_fd fuel (i + 1) (rest.drop (b :: bs).length)
        { trace := s.trace ++ [Syscall.read src_fd (some (b :: bs)), Syscall.write dest_fd (b :: bs)]
          dest := s.dest ++ sys_write env i (b :: bs) }

/-- The test `!exclude_ext || !ext || strcmp(ext, exclude_ext) != 0` of `copy_callback`. -/
def copy_wanted (g : Globals) (path : CStr) : Bool :=
  match g.exclude_ext, strrchr path '.' with
  | none, _ => true
  | some _, none => true
  | some x, some ext => decide (strcmp ext x ≠ 0)

/-- What one call of `copy_callback` yields: return value, calls issued, the destination
path computed, and the content of the destination file when the call created or truncated
it. -/
structure CopyResult where
  ret : Int
  trace : List Syscall
  dest_path : CStr
  dest : Option (List Byte)

/-- The message passed to `perror` when the source cannot be opened. -/
def err_open_source : CStr := "Error opening source file".toList

/-- The message passed to `perror` when the destination cannot be created. -/
def err_create_dest : CStr := "Error creating destination file".toList

/-- The callback `copy_callback`. `none` only when `construct_dest_path` has no defined
result or the loop bound (length of the source plus one) were too small. -/
def copy_callback (g : Globals) (env : CopyEnv) (e : Entry) : Option CopyResult :=
  match construct_dest_path g e.path with
  | none => none
  | some dest_path =>
    if e.typeflag = FTW_D then
      some { ret := 0, trace := [Syscall.mkdir dest_path e.sb.st_mode env.mkdir_ret],
             dest_path := dest_path, dest := none }
    else if e.typeflag = FTW_F then
      if copy_wanted g e.path then
        match env.open_src with
        | none =>
          some { ret := -1
                 trace := [Syscall.open_rdonly e.path none, Syscall.perror err_open_source]
                 dest_path := dest_path, dest := none }
        | some (src_fd, content) =>
          match env.open_dest with
          | none =>
            some { ret := -1
                   trace := [Syscall.open_rdonly e.path (some src_fd),
                             Syscall.open_creat_trunc dest_path e.sb.st_mode none,
                             Syscall.perror err_create_dest, Syscall.close src_fd]
                   dest_path := dest_path, dest := none }
          | some dest_fd =>
            match copy_loop env src_fd dest_fd (content.length + 1) 0 content
                { trace := [Syscall.open_rdonly e.path (some src_fd),
                            Syscall.open_creat_trunc dest_path e.sb.st_mode (some dest_fd)]
                  dest := [] } with
            | none => none
            | some s =>
              some { ret := 0
                     trace := s.trace ++ [Syscall.close src_fd, Syscall.close dest_fd]
                     dest_path := dest_path, dest := some s.dest }
      else
        some { ret := 0, trace := [], dest_path := dest_path, dest := none }
    else
      some { ret := 0, trace := [], dest_path := dest_path, dest := none }

/-- Effect of one call on the set of open descriptors. -/
def track_fd (fds : List Nat) : Syscall → List Nat
  | Syscall.open_rdonly _ (some fd) => fd :: fds
  | Syscall.open_creat_trunc _ _ (some fd) => fd :: fds
  | Syscall.close fd => fds.erase fd
  | _ => fds

/-- The descriptors a sequence of calls has opened and not closed. -/
def open_descriptors (trace : List Syscall) : List Nat :=
  trace.foldl track_fd []

/-- The chunk a call brought in: the bytes of a `read` that returned more than zero. -/
def read_chunk : Syscall → Option (List Byte)
  | Syscall.read _ (some (b :: bs)) => some (b :: bs)
  | _ => none

/-- The chunk a call sent out: the bytes handed to a `write`. -/
def write_chunk : Syscall → Option (List Byte)
  | Syscall.write _ buf => some buf
  | _ => none

/-- The non-empty chunks the `read` calls of a trace returned, in order. -/
def reads_of (trace : List Syscall) : List (List Byte) :=
  trace.filterMap read_chunk

/-- The chunks handed to the `write` calls of a trace, in order. -/
def writes_of (trace : List Syscall) : List (List Byte) :=
  trace.filterMap write_chunk

/-- The entry is a file that `copy_callback` leaves out: an exclude extension is configured
and the substring of the path from its last `.` is that extension. -/
def Excluded (g : Globals) (e : Entry) : Prop :=
  e.typeflag = FTW_F ∧ ∃ E, g.exclude_ext = some E ∧ LastDotSuffix e.path E

/-! ## move_callback -/

/-- The callback `move_callback`: return value and the `rename` issued. -/
def move_callback (g : Globals) (e : Entry) : Option (Int × List Syscall) :=
  match construct_dest_path g e.path with
  | none => none
  | some dest_path => some (0, [Syscall.rename e.path dest_path])

/-! ## The walk -/

/-- The contract of `nftw` as far as the callbacks see it: the callback is applied to the
visited entries in order, and the walk stops with the first non-zero return value. -/
def nftw_walk {σ : Type} (cb : σ → Entry → Int × σ) : List Entry → σ → Int × σ
  | [], s => (0, s)
  | e :: es, s =>
    if (cb s e).1 ≠ 0 then cb s e else nftw_walk cb es (cb s e).2

/-- The callback `size_callback` as a step of a walk. -/
def size_step (g : Globals) (e : Entry) : Int × Globals :=
  ((size_callback g e).ret, (size_callback g e).globals)

/-- A walk with `size_callback` started with `total_size = 0`; the result is `total_size`. -/
def size_walk (entries : List Entry) : Int :=
  (nftw_walk size_step entries Globals.init).2.total_size

/-- A walk with `delete_callback` over `entries`, which also are the tree it acts on. -/
def delete_walk (g : Globals) (removable : CStr → Bool) (entries : List Entry) : Int × DelState :=
  nftw_walk (delete_callback g removable) entries { tree := entries, trace := [], out := [] }

/-! ## main -/

/-- The callbacks of the program, as values that can be handed to `nftw`. -/
inductive Callback where
  | list
  | count_files
  | count_dirs
  | size
  | ext
  | delete
  | copy
  | move
  deriving DecidableEq

/-- Exit status `EXIT_SUCCESS`. -/
def EXIT_SUCCESS : Int := 0

/-- Exit status `EXIT_FAILURE`. -/
def EXIT_FAILURE : Int := 1

/-- The usage line written to standard error. -/
def usage_line : CStr := "Usage: dtree <option> <root_dir> [additional args]".toList

/-- The line written to standard error for an option that is not accepted. -/
def invalid_line : CStr := "Invalid option or missing arguments.".toList

/-- What `main` does: its exit status, the `nftw` call it made if any (root and callback),
the value of `search_ext` at that point, and the lines written to standard error. -/
structure MainResult where
  status : Int
  walk : Option (CStr × Callback)
  search_ext : Option CStr
  err : List CStr
  deriving DecidableEq

/-- The function `main`. `argv` holds the program name and the arguments (`argc` is its
length); the second argument is what the call of `nftw` returns, which `main` does not
look at.
`strncpy(src_root, argv[2], MAX_PATH)` keeps at most `MAX_PATH` characters. -/
def main (argv : List CStr) (_nftw_ret : Int) : MainResult :=
  match argv with
  | _ :: option :: root :: rest =>
    let src_root := root.take MAX_PATH
    if strcmp option "-ls".toList = 0 then
      { status := EXIT_SUCCESS, walk := some (src_root, Callback.list), search_ext := none,
        err := [] }
    else if strcmp option "-ext".toList = 0 ∧ argv.length = 4 then
      { status := EXIT_SUCCESS, walk := some (src_root, Callback.ext),
        search_ext := rest.head?, err := [] }
    else
      { status := EXIT_FAILURE, walk := none, search_ext := none, err := [invalid_line] }
  | _ => { status := EXIT_FAILURE, walk := none, search_ext := none, err := [usage_line] }

/-! ## Notions of the specification -/

/-- The eight option names of the command surface. -/
def command_options : List CStr :=
  ["-ls".toList, "-count-files".toList, "-count-dirs".toList, "-size".toList,
   "-ext".toList, "-delete".toList, "-copy".toList, "-move".toList]

/-- The final component of a path in the sense of the specification: the characters after
the last `/`, the whole path when it has none. -/
def filename (p : CStr) : CStr :=
  match strrchr p '/' with
  | some r => r.drop 1
  | none => p

/-- The extension the code assigns to a file entry: `strrchr(path, '.')` for a file,
nothing for any other entry. -/
def file_ext (e : Entry) : Option CStr :=
  if e.typeflag = FTW_F then strrchr e.path '.' else none

/-- The entries `ext_callback` prints when `search_ext` is `E`. -/
def printed_with (E : CStr) (entries : List Entry) : List Entry :=
  entries.filter (fun e => (ext_callback { Globals.init with search_ext := some E } e).out ≠ [])

/-- The file entries of a sequence. -/
def file_entries (entries : List Entry) : List Entry :=
  entries.filter (fun e => e.typeflag = FTW_F)

/-- Sum of the sizes of a list of entries. -/
def sum_sizes (entries : List Entry) : Int :=
  (entries.map (fun e => e.sb.st_size)).sum

/-- The distinct extension values that occur among the file entries. -/
def distinct_exts (entries : List Entry) : List CStr :=
  (entries.filterMap file_ext).dedup

/-- The file entries whose path has no `.`. -/
def files_without_dot (entries : List Entry) : List Entry :=
  entries.filter (fun e => e.typeflag = FTW_F ∧ '.' ∉ e.path)

/-- The right-hand side of size additivity: for each distinct extension the sizes of the
entries found for it, plus the sizes of the files without a `.`. -/
def size_by_extension (entries : List Entry) : Int :=
  ((distinct_exts entries).map (fun E => sum_sizes (printed_with E entries))).sum
    + sum_sizes (files_without_dot entries)

/-- The file entries a deleting walk for extension `E` has to remove: the files whose
extension is `E`. -/
def delete_targets (E : CStr) (entries : List Entry) : List Entry :=
  entries.filter (fun e => e.typeflag = FTW_F ∧ strrchr e.path '.' = some E)

/-! ## Sample values -/

/-- Globals of a copy from `src` to `dst` that excludes `.log`. -/
def sample_globals : Globals :=
  { Globals.init with
    exclude_ext := some ['.', 'l', 'o', 'g'], src_root := ['s', 'r', 'c'],
    dest_root := ['d', 's', 't'] }

/-- The file `src/a` with mode 0644. -/
def sample_file : Entry :=
  { path := ['s', 'r', 'c', '/', 'a'], sb := { st_size := 3, st_mode := 420 },
    typeflag := FTW_F }

/-- The file `src/b.log` with mode 0644. -/
def sample_log_file : Entry :=
  { path := ['s', 'r', 'c', '/', 'b', '.', 'l', 'o', 'g'], sb := { st_size := 3, st_mode := 420 },
    typeflag := FTW_F }

/-- An operating system where every call succeeds in full; the source holds three bytes. -/
def sample_env : CopyEnv :=
  { mkdir_ret := 0, open_src := some (3, [104, 105, 10]), open_dest := some 4,
    read_avail := fun _ => some 4096, write_done := fun _ => none }

/-- As `sample_env`, but the destination cannot be created. -/
def sample_env_no_dest : CopyEnv :=
  { sample_env with open_dest := none }

/-- As `sample_env`, but the source cannot be opened. -/
def sample_env_no_src : CopyEnv :=
  { sample_env with open_src := none }

/-- As `sample_env`, but `mkdir` fails and the second `write` is cut short. -/
def sample_env_short_write : CopyEnv :=
  { sample_env with
    mkdir_ret := -1, read_avail := fun _ => some 2,
    write_done := fun i => if i = 0 then none else some 0 }

/-- The directory `src/d` with mode 0755. -/
def sample_dir : Entry :=
  { path := ['s', 'r', 'c', '/', 'd'], sb := { st_size := 4096, st_mode := 493 },
    typeflag := FTW_D }

/-- As `sample_env`, but every `write` fails, so that no byte reaches the file. -/
def sample_env_write_fails : CopyEnv :=
  { sample_env with write_done := fun _ => some 0 }

/-! ## Lemmas on the library functions -/

theorem strcmp_eq_zero_iff (a b : CStr) : strcmp a b = 0 ↔ a = b := by
  induction a generalizing b with
  | nil => cases b <;> simp [strcmp]
  | cons x xs ih =>
    cases b with
    | nil => simp [strcmp]
    | cons y ys =>
      by_cases hxy : x = y
      · simp [strcmp, hxy, ih]
      · by_cases hlt : x.toNat < y.toNat <;> simp [strcmp, hxy, hlt]

theorem strrchr_eq_none_iff (p : CStr) (c : Char) : strrchr p c = none ↔ c ∉ p := by
  induction p with
  | nil => simp [strrchr]
  | cons x xs ih =>
    cases hr : strrchr xs c with
    | some r =>
      have : c ∈ xs := by
        by_contra hc
        rw [ih.mpr hc] at hr
        cases hr
      simp [strrchr, hr, this]
    | none =>
      have hc : c ∉ xs := ih.mp hr
      by_cases hx : x = c
      · simp [strrchr, hr, hx]
      · have hx2 : ¬ c = x := fun h => hx h.symm
        simp [strrchr, hr, hx, hc, hx2]

theorem strrchr_eq_some_iff (p : CStr) (c : Char) (r : CStr) :
    strrchr p c = some r ↔ ∃ pre rest, p = pre ++ c :: rest ∧ c ∉ rest ∧ r = c :: rest := by
  induction p generalizing r with
  | nil => simp [strrchr]
  | cons x xs ih =>
    cases hr : strrchr xs c with
    | some r2 =>
      obtain ⟨pre, rest, hp, hn, hr2⟩ := (ih r2).mp hr
      simp only [strrchr, hr, Option.some.injEq]
      constructor
      · intro h
        subst h
        exact ⟨x :: pre, rest, by simp [hp], hn, hr2⟩
      · rintro ⟨pre2, rest2, hp2, hn2, hr3⟩
        cases pre2 with
        | nil =>
          simp only [List.nil_append, List.cons.injEq] at hp2
          obtain ⟨-, hxs⟩ := hp2
          exfalso
          apply hn2
          rw [← hxs, hp]
          simp
        | cons y ys =>
          simp only [List.cons_append, List.cons.injEq] at hp2
          obtain ⟨-, hxs⟩ := hp2
          have h3 : strrchr xs c = some (c :: rest2) := (ih (c :: rest2)).mpr ⟨ys, rest2, hxs, hn2, rfl⟩
          rw [hr] at h3
          rw [hr3]
          exact Option.some.inj h3
    | none =>
      have hc : c ∉ xs := (strrchr_eq_none_iff xs c).mp hr
      by_cases hx : x = c
      · simp only [strrchr, hr, hx, if_true, Option.some.injEq]
        constructor
        · intro h
          exact ⟨[], xs, by simp, hc, h.symm⟩
        · rintro ⟨pre2, rest2, hp2, hn2, hr3⟩
          cases pre2 with
          | nil =>
            simp only [List.nil_append, List.cons.injEq] at hp2
            rw [hr3, hp2.2]
          | cons y ys =>
            simp only [List.cons_append, List.cons.injEq] at hp2
            exfalso
            apply hc
            rw [hp2.2]
            simp
      · simp only [strrchr, hr, hx, if_false]
        constructor
        · intro h
          cases h
        · rintro ⟨pre2, rest2, hp2, hn2, hr3⟩
          exfalso
          cases pre2 with
          | nil =>
            simp only [List.nil_append, List.cons.injEq] at hp2
            exact hx hp2.1
          | cons y ys =>
            simp only [List.cons_append, List.cons.injEq] at hp2
            apply hc
            rw [hp2.2]
            simp

theorem lastDotSuffix_iff_strrchr (p E : CStr) :
    LastDotSuffix p E ↔ strrchr p '.' = some E :=
  (strrchr_eq_some_iff p '.' E).symm

theorem lastDotSuffix_mem (p E : CStr) (h : LastDotSuffix p E) : '.' ∈ p := by
  obtain ⟨pre, rest, hp, -, -⟩ := h
  rw [hp]
  simp

theorem lastDotSuffix_filename (p E : CStr) (hE : '/' ∉ E) :
    LastDotSuffix p E ↔ LastDotSuffix (filename p) E := by
  unfold filename
  cases hr : strrchr p '/' with
  | none => simp
  | some r =>
    obtain ⟨pre, rest, hp, -, hr2⟩ := (strrchr_eq_some_iff p '/' r).mp hr
    subst hr2
    simp only [List.drop_succ_cons, List.drop_zero]
    constructor
    · rintro ⟨pre2, rest2, hp2, hn2, hE2⟩
      have hs : '/' ∉ rest2 := by
        intro hmem
        apply hE
        rw [hE2]
        exact List.mem_cons_of_mem _ hmem
      rw [hp] at hp2
      rcases List.append_eq_append_iff.mp hp2 with ⟨a, ha1, ha2⟩ | ⟨c, hc1, hc2⟩
      · cases a with
        | nil =>
          simp only [List.nil_append, List.cons.injEq] at ha2
          exact absurd ha2.1 (by decide)
        | cons y ys =>
          simp only [List.cons_append, List.cons.injEq] at ha2
          exact ⟨ys, rest2, ha2.2, hn2, hE2⟩
      · cases c with
        | nil =>
          simp only [List.nil_append, List.cons.injEq] at hc2
          exact absurd hc2.1 (by decide)
        | cons y ys =>
          simp only [List.cons_append, List.cons.injEq] at hc2
          exfalso
          apply hs
          rw [hc2.2]
          simp
    · rintro ⟨pre2, rest2, hp2, hn2, hE2⟩
      refine ⟨pre ++ '/' :: pre2, rest2, ?_, hn2, hE2⟩
      rw [hp, hp2]
      simp

/-! ## ext_callback -/

theorem ext_callback_out (g : Globals) (e : Entry) (E : CStr) :
    (ext_callback { g with search_ext := some E } e).out =
      if e.typeflag = FTW_F ∧ strrchr e.path '.' = some E then [e.path] else [] := by
  unfold ext_callback
  cases htf : e.typeflag <;> simp
  cases hs : strrchr e.path '.' with
  | none => simp
  | some x =>
    by_cases hx : x = E
    · simp [hx, (strcmp_eq_zero_iff E E).mpr rfl]
    · have : strcmp x E ≠ 0 := fun h => hx ((strcmp_eq_zero_iff x E).mp h)
      simp [hx, this]

/-- C3 (as amended): with `search_ext = E`, `ext_callback` prints exactly the line of the
path when the entry is a file and the substring of its path from the last `.` on is `E`,
prints nothing otherwise, and returns 0; a path without `.` is never printed; and for an
`E` without `/` the substring of the path from its last `.` is `E` exactly when that of
the file name is. -/
theorem ext_callback_prints_iff (g : Globals) (e : Entry) (E : CStr) :
    ((ext_callback { g with search_ext := some E } e).out = [e.path] ↔
        e.typeflag = FTW_F ∧ LastDotSuffix e.path E)
      ∧ (¬ (e.typeflag = FTW_F ∧ LastDotSuffix e.path E) →
          (ext_callback { g with search_ext := some E } e).out = [])
      ∧ (ext_callback { g with search_ext := some E } e).ret = 0
      ∧ ('.' ∉ e.path → (ext_callback { g with search_ext := some E } e).out = [])
      ∧ ('/' ∉ E → (LastDotSuffix e.path E ↔ LastDotSuffix (filename e.path) E)) := by
  have key := ext_callback_out g e E
  simp only [lastDotSuffix_iff_strrchr]
  refine ⟨?_, ?_, rfl, ?_, ?_⟩
  · rw [key]
    by_cases h : e.typeflag = FTW_F ∧ strrchr e.path '.' = some E
    · simp [h]
    · rw [if_neg h]
      simp [h]
  · intro h
    rw [key, if_neg h]
  · intro h
    rw [key, if_neg]
    rintro ⟨-, hl⟩
    rw [(strrchr_eq_none_iff _ _).mpr h] at hl
    cases hl
  · intro hE
    have := lastDotSuffix_filename e.path E hE
    simpa only [lastDotSuffix_iff_strrchr] using this

/-- Witness for `ext_callback_prints_iff`: the entry `a.txt` searched with `.txt`. -/
theorem ext_callback_prints_iff_witness :
    '/' ∉ ['.', 't', 'x', 't'] ∧
    (LastDotSuffix ['a', '.', 't', 'x', 't'] ['.', 't', 'x', 't'] ↔
      LastDotSuffix (filename ['a', '.', 't', 'x', 't']) ['.', 't', 'x', 't']) :=
  ⟨by decide,
   (ext_callback_prints_iff Globals.init
      { path := ['a', '.', 't', 'x', 't'], sb := { st_size := 5, st_mode := 420 },
        typeflag := FTW_F } ['.', 't', 'x', 't']).2.2.2.2 (by decide)⟩

/-- C3 (counterexample): for the file `a.b/c` and `search_ext = ".b/c"` the callback prints
the path, although the file name `c` contains no `.` at all. -/
theorem ext_callback_filename_counterexample :
    (ext_callback { Globals.init with search_ext := some ['.', 'b', '/', 'c'] }
        { path := ['a', '.', 'b', '/', 'c'], sb := { st_size := 0, st_mode := 420 },
          typeflag := FTW_F }).out = [['a', '.', 'b', '/', 'c']]
      ∧ filename ['a', '.', 'b', '/', 'c'] = ['c']
      ∧ '.' ∉ filename ['a', '.', 'b', '/', 'c']
      ∧ ¬ LastDotSuffix (filename ['a', '.', 'b', '/', 'c']) ['.', 'b', '/', 'c'] := by
  refine ⟨by decide, by decide, by decide, ?_⟩
  intro h
  have := lastDotSuffix_mem _ _ h
  revert this
  decide

/-! ## construct_dest_path -/

/-- C10: for a visited path `src_root ++ suffix`, `construct_dest_path` yields
`dest_root ++ suffix` whenever that is shorter than `MAX_PATH`, and in every case the first
`MAX_PATH - 1` characters of `dest_root ++ suffix`; the source root itself is mapped to the
destination root. -/
theorem construct_dest_path_spec (g : Globals) (path suffix : CStr)
    (hpre : path = g.src_root ++ suffix) :
    construct_dest_path g path = some ((g.dest_root ++ suffix).take (MAX_PATH - 1))
      ∧ ((g.dest_root ++ suffix).length < MAX_PATH →
          construct_dest_path g path = some (g.dest_root ++ suffix))
      ∧ (MAX_PATH ≤ (g.dest_root ++ suffix).length →
          ∃ r, construct_dest_path g path = some r ∧ r.length = MAX_PATH - 1
            ∧ r <+: g.dest_root ++ suffix)
      ∧ (g.dest_root.length < MAX_PATH →
          construct_dest_path g g.src_root = some g.dest_root) := by
  have hdrop : ∀ s : CStr, (g.src_root ++ s).drop g.src_root.length = s := by
    intro s
    simp
  have hmain : ∀ s : CStr, construct_dest_path g (g.src_root ++ s)
      = some ((g.dest_root ++ s).take (MAX_PATH - 1)) := by
    intro s
    unfold construct_dest_path snprintf_ss
    rw [if_pos (by simp), hdrop]
  subst hpre
  refine ⟨hmain suffix, ?_, ?_, ?_⟩
  · intro hlen
    rw [hmain, List.take_of_length_le (by omega)]
  · intro hlen
    refine ⟨_, hmain suffix, ?_, List.take_prefix _ _⟩
    rw [List.length_take]
    omega
  · intro hlen
    have h := hmain []
    simp only [List.append_nil] at h
    rw [h, List.take_of_length_le (by omega)]

/-- Witness for `construct_dest_path_spec`: `src/a` under source root `src` and destination
root `dst` is mapped to `dst/a`. -/
theorem construct_dest_path_spec_witness :
    construct_dest_path
        { Globals.init with src_root := ['s', 'r', 'c'], dest_root := ['d', 's', 't'] }
        ['s', 'r', 'c', '/', 'a'] = some ['d', 's', 't', '/', 'a'] := by
  have h := (construct_dest_path_spec
    { Globals.init with src_root := ['s', 'r', 'c'], dest_root := ['d', 's', 't'] }
    ['s', 'r', 'c', '/', 'a'] ['/', 'a'] rfl).2.1 (by decide)
  exact h

/-! ## size_callback and size additivity -/

theorem sum_sizes_cons (e : Entry) (es : List Entry) :
    sum_sizes (e :: es) = e.sb.st_size + sum_sizes es := by
  simp [sum_sizes]

theorem sum_sizes_nil : sum_sizes [] = 0 := rfl

theorem wrap_off_t_of_range (x : Int) (h0 : 0 ≤ x) (h1 : x < 2 ^ 63) : wrap_off_t x = x := by
  unfold wrap_off_t
  rw [Int.emod_eq_of_lt (by omega) (by omega)]
  omega

theorem wrap_off_t_range (x : Int) : -2 ^ 63 ≤ wrap_off_t x ∧ wrap_off_t x < 2 ^ 63 := by
  unfold wrap_off_t
  have h1 := Int.emod_nonneg (x + 2 ^ 63) (show (2 : Int) ^ 64 ≠ 0 by norm_num)
  have h2 := Int.emod_lt_of_pos (x + 2 ^ 63) (show (0 : Int) < 2 ^ 64 by norm_num)
  constructor <;> omega

theorem sum_sizes_file_entries_nonneg (entries : List Entry)
    (hpos : ∀ e ∈ entries, e.typeflag = FTW_F → 0 ≤ e.sb.st_size) :
    0 ≤ sum_sizes (file_entries entries) := by
  induction entries with
  | nil => simp [file_entries, sum_sizes]
  | cons e es ih =>
    have ih2 := ih (fun x hx => hpos x (List.mem_cons_of_mem _ hx))
    unfold file_entries at ih2 ⊢
    by_cases hf : e.typeflag = FTW_F
    · have := hpos e (List.mem_cons_self _ _) hf
      rw [List.filter_cons_of_pos (by simpa using hf), sum_sizes_cons]
      omega
    · rw [List.filter_cons_of_neg (by simpa using hf)]
      exact ih2

theorem nftw_walk_size_step (entries : List Entry) (g : Globals)
    (hg : 0 ≤ g.total_size)
    (hpos : ∀ e ∈ entries, e.typeflag = FTW_F → 0 ≤ e.sb.st_size)
    (hfit : g.total_size + sum_sizes (file_entries entries) < 2 ^ 63) :
    (nftw_walk size_step entries g).1 = 0 ∧
    (nftw_walk size_step entries g).2.total_size
      = g.total_size + sum_sizes (file_entries entries) := by
  induction entries generalizing g with
  | nil => simp [nftw_walk, file_entries, sum_sizes]
  | cons e es ih =>
    have hpos2 : ∀ x ∈ es, x.typeflag = FTW_F → 0 ≤ x.sb.st_size :=
      fun x hx => hpos x (List.mem_cons_of_mem _ hx)
    have hrest := sum_sizes_file_entries_nonneg es hpos2
    have hret : (size_step g e).1 = 0 := rfl
    rw [nftw_walk, if_neg (by simp [hret])]
    by_cases hf : e.typeflag = FTW_F
    · have he := hpos e (List.mem_cons_self _ _) hf
      have hsum : sum_sizes (file_entries (e :: es))
          = e.sb.st_size + sum_sizes (file_entries es) := by
        unfold file_entries
        rw [List.filter_cons_of_pos (by simpa using hf), sum_sizes_cons]
      rw [hsum] at hfit ⊢
      have hstep : (size_step g e).2.total_size = g.total_size + e.sb.st_size := by
        simp only [size_step, size_callback, if_pos hf]
        exact wrap_off_t_of_range _ (by omega) (by omega)
      have := ih (size_step g e).2 (by rw [hstep]; omega) hpos2 (by rw [hstep]; omega)
      rw [this.1, this.2, hstep]
      exact ⟨rfl, by ring⟩
    · have hsum : sum_sizes (file_entries (e :: es)) = sum_sizes (file_entries es) := by
        unfold file_entries
        rw [List.filter_cons_of_neg (by simpa using hf)]
      rw [hsum] at hfit ⊢
      have hstep : (size_step g e).2 = g := by
        simp only [size_step, size_callback, if_neg hf]
      rw [hstep]
      exact ih g hg hpos2 hfit

theorem printed_with_eq (E : CStr) (entries : List Entry) :
    printed_with E entries = entries.filter (fun e => file_ext e = some E) := by
  unfold printed_with
  apply List.filter_congr
  intro e _
  rw [ext_callback_out Globals.init e E]
  by_cases hf : e.typeflag = FTW_F
  · by_cases hx : strrchr e.path '.' = some E
    · simp [file_ext, hf, hx]
    · simp [file_ext, hf, hx]
  · simp [file_ext, hf]

theorem sum_sizes_filter_ext (D : Finset CStr) (entries : List Entry)
    (hD : ∀ e ∈ entries, ∀ E, file_ext e = some E → E ∈ D) :
    (D.sum fun E => sum_sizes (entries.filter (fun e => file_ext e = some E)))
      = sum_sizes (entries.filter (fun e => (file_ext e).isSome)) := by
  induction entries with
  | nil => simp [sum_sizes]
  | cons e es ih =>
    have ih2 := ih (fun x hx => hD x (List.mem_cons_of_mem _ hx))
    have hsplit : ∀ E, sum_sizes ((e :: es).filter (fun x => file_ext x = some E))
        = (if file_ext e = some E then e.sb.st_size else 0)
          + sum_sizes (es.filter (fun x => file_ext x = some E)) := by
      intro E
      by_cases h : file_ext e = some E
      · rw [List.filter_cons_of_pos (by simpa using h), sum_sizes_cons, if_pos h]
      · rw [List.filter_cons_of_neg (by simpa using h), if_neg h, zero_add]
    simp only [hsplit, Finset.sum_add_distrib, ih2]
    cases he : file_ext e with
    | none =>
      rw [List.filter_cons_of_neg (by simp [he])]
      simp
    | some E0 =>
      have hmem : E0 ∈ D := hD e (List.mem_cons_self _ _) E0 he
      rw [List.filter_cons_of_pos (by simp [he]), sum_sizes_cons]
      simp [Finset.sum_ite_eq, hmem]

theorem sum_sizes_file_split (entries : List Entry) :
    sum_sizes (file_entries entries)
      = sum_sizes (entries.filter (fun e => (file_ext e).isSome))
        + sum_sizes (files_without_dot entries) := by
  unfold file_entries files_without_dot
  induction entries with
  | nil => simp [sum_sizes]
  | cons e es ih =>
    by_cases hf : e.typeflag = FTW_F
    · cases hs : strrchr e.path '.' with
      | none =>
        have hdot : '.' ∉ e.path := (strrchr_eq_none_iff _ _).mp hs
        rw [List.filter_cons_of_pos (by simpa using hf),
          List.filter_cons_of_neg (by simp [file_ext, hf, hs]),
          List.filter_cons_of_pos (by simp [hf, hdot]), sum_sizes_cons, sum_sizes_cons, ih]
        ring
      | some x =>
        have hdot : '.' ∈ e.path := by
          by_contra hc
          rw [(strrchr_eq_none_iff _ _).mpr hc] at hs
          cases hs
        rw [List.filter_cons_of_pos (by simpa using hf),
          List.filter_cons_of_pos (by simp [file_ext, hf, hs]),
          List.filter_cons_of_neg (by simp [hf, hdot]), sum_sizes_cons, sum_sizes_cons, ih]
        ring
    · rw [List.filter_cons_of_neg (by simpa using hf),
        List.filter_cons_of_neg (by simp [file_ext, hf]),
        List.filter_cons_of_neg (by simp [hf]), ih]

theorem size_by_extension_eq (entries : List Entry) :
    size_by_extension entries = sum_sizes (file_entries entries) := by
  unfold size_by_extension distinct_exts
  rw [sum_sizes_file_split]
  congr 1
  rw [← List.sum_toFinset _ (List.nodup_dedup _)]
  simp only [printed_with_eq]
  apply sum_sizes_filter_ext
  intro e he E hE
  rw [List.mem_toFinset, List.mem_dedup, List.mem_filterMap]
  exact ⟨e, he, hE⟩

/-- C4 (as amended): when the sizes of the file entries are non-negative and sum to less
than 2^63, the total accumulated by a walk with `size_callback` from `total_size = 0` is the
sum over the distinct extensions of the sizes of the entries `ext_callback` prints for that
extension, plus the sizes of the files whose path has no `.`; non-file entries add nothing. -/
theorem size_walk_additive (entries : List Entry)
    (hpos : ∀ e ∈ entries, e.typeflag = FTW_F → 0 ≤ e.sb.st_size)
    (hfit : sum_sizes (file_entries entries) < 2 ^ 63) :
    size_walk entries = size_by_extension entries := by
  rw [size_by_extension_eq]
  unfold size_walk
  have h := nftw_walk_size_step entries Globals.init (by simp [Globals.init]) hpos
    (by simpa [Globals.init] using hfit)
  rw [h.2]
  simp [Globals.init]

/-- Witness for `size_walk_additive`: the tree of the scenario, `root` (directory),
`root/a.txt` (5 bytes), `root/sub` (directory), `root/sub/b.log` (3 bytes). -/
theorem size_walk_additive_witness :
    size_walk
      [{ path := "root".toList, sb := { st_size := 4096, st_mode := 493 }, typeflag := FTW_D },
       { path := "root/a.txt".toList, sb := { st_size := 5, st_mode := 420 }, typeflag := FTW_F },
       { path := "root/sub".toList, sb := { st_size := 4096, st_mode := 493 }, typeflag := FTW_D },
       { path := "root/sub/b.log".toList, sb := { st_size := 3, st_mode := 420 },
         typeflag := FTW_F }]
      = size_by_extension
      [{ path := "root".toList, sb := { st_size := 4096, st_mode := 493 }, typeflag := FTW_D },
       { path := "root/a.txt".toList, sb := { st_size := 5, st_mode := 420 }, typeflag := FTW_F },
       { path := "root/sub".toList, sb := { st_size := 4096, st_mode := 493 }, typeflag := FTW_D },
       { path := "root/sub/b.log".toList, sb := { st_size := 3, st_mode := 420 },
         typeflag := FTW_F }] :=
  size_walk_additive _ (by decide) (by decide)

/-- C4 (counterexample): for two files of 2^62 bytes each the sizes found by extension sum
to 2^63, which no `off_t` holds; the walk with `size_callback` ends with another total. -/
theorem size_walk_overflow_counterexample :
    size_by_extension
      [{ path := ['a', '.', 'x'], sb := { st_size := 2 ^ 62, st_mode := 420 }, typeflag := FTW_F },
       { path := ['b', '.', 'x'], sb := { st_size := 2 ^ 62, st_mode := 420 }, typeflag := FTW_F }]
      = 2 ^ 63
    ∧ size_walk
      [{ path := ['a', '.', 'x'], sb := { st_size := 2 ^ 62, st_mode := 420 }, typeflag := FTW_F },
       { path := ['b', '.', 'x'], sb := { st_size := 2 ^ 62, st_mode := 420 }, typeflag := FTW_F }]
      = -2 ^ 63
    ∧ size_walk
      [{ path := ['a', '.', 'x'], sb := { st_size := 2 ^ 62, st_mode := 420 }, typeflag := FTW_F },
       { path := ['b', '.', 'x'], sb := { st_size := 2 ^ 62, st_mode := 420 }, typeflag := FTW_F }]
      ≠ size_by_extension
      [{ path := ['a', '.', 'x'], sb := { st_size := 2 ^ 62, st_mode := 420 }, typeflag := FTW_F },
       { path := ['b', '.', 'x'], sb := { st_size := 2 ^ 62, st_mode := 420 }, typeflag := FTW_F }] := by
  refine ⟨by decide, by decide, by decide⟩

/-! ## delete_callback -/

theorem delete_callback_step (g : Globals) (E : CStr) (removable : CStr → Bool) (s : DelState)
    (e : Entry) :
    delete_callback { g with search_ext := some E } removable s e =
      if e.typeflag = FTW_F ∧ strrchr e.path '.' = some E then
        (0, { tree := sys_remove removable e.path s.tree
              trace := s.trace ++ [Syscall.remove e.path]
              out := s.out ++ [deleted_line e.path] })
      else (0, s) := by
  unfold delete_callback
  cases htf : e.typeflag <;> simp
  cases hs : strrchr e.path '.' with
  | none => simp
  | some x =>
    by_cases hx : x = E
    · simp [hx, (strcmp_eq_zero_iff E E).mpr rfl]
    · have : strcmp x E ≠ 0 := fun h => hx ((strcmp_eq_zero_iff x E).mp h)
      simp [hx, this]

theorem delete_targets_cons (E : CStr) (e : Entry) (es : List Entry) :
    delete_targets E (e :: es) =
      if e.typeflag = FTW_F ∧ strrchr e.path '.' = some E then e :: delete_targets E es
      else delete_targets E es := by
  unfold delete_targets
  by_cases h : e.typeflag = FTW_F ∧ strrchr e.path '.' = some E
  · rw [List.filter_cons_of_pos (by simpa using h), if_pos h]
  · rw [List.filter_cons_of_neg (by simpa using h), if_neg h]

theorem nftw_walk_delete (g : Globals) (E : CStr) (removable : CStr → Bool)
    (es : List Entry) (s : DelState) :
    (nftw_walk (delete_callback { g with search_ext := some E } removable) es s).1 = 0
    ∧ (nftw_walk (delete_callback { g with search_ext := some E } removable) es s).2.trace
        = s.trace ++ (delete_targets E es).map (fun e => Syscall.remove e.path)
    ∧ (nftw_walk (delete_callback { g with search_ext := some E } removable) es s).2.out
        = s.out ++ (delete_targets E es).map (fun e => deleted_line e.path)
    ∧ ((∀ p, removable p = true) →
        (nftw_walk (delete_callback { g with search_ext := some E } removable) es s).2.tree
          = s.tree.filter (fun x => x.path ∉ (delete_targets E es).map (fun e => e.path))) := by
  induction es generalizing s with
  | nil => simp [nftw_walk, delete_targets]
  | cons e es ih =>
    rw [nftw_walk, delete_callback_step, delete_targets_cons]
    by_cases h : e.typeflag = FTW_F ∧ strrchr e.path '.' = some E
    · simp only [if_pos h, ne_eq, not_true_eq_false, if_false]
      obtain ⟨h1, h2, h3, h4⟩ := ih
        { tree := sys_remove removable e.path s.tree
          trace := s.trace ++ [Syscall.remove e.path]
          out := s.out ++ [deleted_line e.path] }
      refine ⟨h1, ?_, ?_, ?_⟩
      · rw [h2]
        simp
      · rw [h3]
        simp
      · intro hall
        rw [h4 hall]
        simp only [sys_remove, hall, if_true, List.filter_filter]
        apply List.filter_congr
        intro x _
        simp only [List.map_cons, List.mem_cons, not_or]
        by_cases hx : x.path = e.path <;> simp [hx]
    · simp only [if_neg h, ne_eq, not_true_eq_false, if_false]
      exact ih s

theorem delete_targets_of_removed (E : CStr) (entries : List Entry) :
    delete_targets E
      (entries.filter (fun x => x.path ∉ (delete_targets E entries).map (fun e => e.path)))
      = [] := by
  unfold delete_targets
  rw [List.filter_filter, List.filter_eq_nil_iff]
  intro x hx
  simp only [Bool.and_eq_true, decide_eq_true_eq, not_and]
  intro h1 h2
  apply h2
  exact List.mem_map.mpr ⟨x, List.mem_filter.mpr ⟨hx, by simpa using h1⟩, rfl⟩

/-- C5: a walk with `delete_callback` and `search_ext = E` calls `remove` for exactly the
file entries whose extension is `E`, in visiting order, and for no other entry; it never
aborts; for an `E` without `/` these are the files whose file name has the extension `E`;
and when every `remove` succeeds, the tree that is left holds the entries whose path
was not removed, and a second walk over it with the same `E` calls `remove` for nothing. -/
theorem delete_walk_scope (g : Globals) (E : CStr) (removable : CStr → Bool)
    (entries : List Entry) :
    (delete_walk { g with search_ext := some E } removable entries).2.trace
        = (delete_targets E entries).map (fun e => Syscall.remove e.path)
    ∧ (∀ e ∈ entries, ¬ (e.typeflag = FTW_F ∧ LastDotSuffix e.path E) →
        e ∉ delete_targets E entries)
    ∧ (∀ e ∈ entries, e.typeflag = FTW_F → LastDotSuffix e.path E →
        Syscall.remove e.path ∈
          (delete_walk { g with search_ext := some E } removable entries).2.trace)
    ∧ (delete_walk { g with search_ext := some E } removable entries).1 = 0
    ∧ ('/' ∉ E → ∀ e, e ∈ delete_targets E entries ↔
        e ∈ entries ∧ e.typeflag = FTW_F ∧ LastDotSuffix (filename e.path) E)
    ∧ ((∀ p, removable p = true) →
        (delete_walk { g with search_ext := some E } removable entries).2.tree
            = entries.filter
                (fun x => x.path ∉ (delete_targets E entries).map (fun e => e.path))
        ∧ (delete_walk { g with search_ext := some E } removable
            (delete_walk { g with search_ext := some E } removable entries).2.tree).2.trace
            = []) := by
  obtain ⟨h1, h2, -, h4⟩ := nftw_walk_delete g E removable entries
    { tree := entries, trace := [], out := [] }
  simp only [List.nil_append] at h2
  refine ⟨h2, ?_, ?_, h1, ?_, ?_⟩
  rotate_left 2
  · intro hE e
    rw [← lastDotSuffix_filename e.path E hE, lastDotSuffix_iff_strrchr]
    simp [delete_targets]
  rotate_right 2
  · intro e _ hne hmem
    apply hne
    have := (List.mem_filter.mp hmem).2
    simp only [decide_eq_true_eq] at this
    exact ⟨this.1, (lastDotSuffix_iff_strrchr _ _).mpr this.2⟩
  · intro e he hf hl
    unfold delete_walk
    rw [h2]
    apply List.mem_map.mpr
    refine ⟨e, List.mem_filter.mpr ⟨he, ?_⟩, rfl⟩
    simp only [decide_eq_true_eq]
    exact ⟨hf, (lastDotSuffix_iff_strrchr _ _).mp hl⟩
  · intro hall
    have ht := h4 hall
    simp only at ht
    refine ⟨ht, ?_⟩
    unfold delete_walk
    rw [ht]
    obtain ⟨-, k2, -, -⟩ := nftw_walk_delete g E removable
      (entries.filter (fun x => x.path ∉ (delete_targets E entries).map (fun e => e.path)))
      { tree := entries.filter
          (fun x => x.path ∉ (delete_targets E entries).map (fun e => e.path)),
        trace := [], out := [] }
    rw [k2, delete_targets_of_removed]
    simp

/-- Witness for `delete_walk_scope`: deleting `.log` in the tree `root/a.txt`,
`root/sub/b.log` with every `remove` succeeding leaves `root/a.txt`, and the second walk
removes nothing. -/
theorem delete_walk_scope_witness :
    (∀ p, (fun _ : CStr => true) p = true)
    ∧ (delete_walk { Globals.init with search_ext := some ".log".toList } (fun _ => true)
        [{ path := "root/a.txt".toList, sb := { st_size := 5, st_mode := 420 },
           typeflag := FTW_F },
         { path := "root/sub/b.log".toList, sb := { st_size := 3, st_mode := 420 },
           typeflag := FTW_F }]).2.tree
        = [{ path := "root/a.txt".toList, sb := { st_size := 5, st_mode := 420 },
             typeflag := FTW_F }]
    ∧ (delete_walk { Globals.init with search_ext := some ".log".toList } (fun _ => true)
        (delete_walk { Globals.init with search_ext := some ".log".toList } (fun _ => true)
          [{ path := "root/a.txt".toList, sb := { st_size := 5, st_mode := 420 },
             typeflag := FTW_F },
           { path := "root/sub/b.log".toList, sb := { st_size := 3, st_mode := 420 },
             typeflag := FTW_F }]).2.tree).2.trace = [] := by
  have h := (delete_walk_scope Globals.init ".log".toList (fun _ => true)
    [{ path := "root/a.txt".toList, sb := { st_size := 5, st_mode := 420 },
       typeflag := FTW_F },
     { path := "root/sub/b.log".toList, sb := { st_size := 3, st_mode := 420 },
       typeflag := FTW_F }]).2.2.2.2.2 (fun _ => rfl)
  exact ⟨fun _ => rfl, by decide, h.2⟩

/-- C6 (as amended): for a matching file entry, whether or not its removal succeeds,
`delete_callback` calls `remove`, prints the confirmation line `Deleted: <path>` and returns
0, and the walk goes on with the remaining entries; when the removal fails the tree is
unchanged. -/
theorem delete_callback_soft (g : Globals) (E : CStr) (removable : CStr → Bool) (s : DelState)
    (e : Entry) (hf : e.typeflag = FTW_F) (hE : LastDotSuffix e.path E) :
    (delete_callback { g with search_ext := some E } removable s e).1 = 0
    ∧ (delete_callback { g with search_ext := some E } removable s e).2.trace
        = s.trace ++ [Syscall.remove e.path]
    ∧ (delete_callback { g with search_ext := some E } removable s e).2.out
        = s.out ++ [deleted_line e.path]
    ∧ (removable e.path = false →
        (delete_callback { g with search_ext := some E } removable s e).2.tree = s.tree)
    ∧ ∀ es, nftw_walk (delete_callback { g with search_ext := some E } removable) (e :: es) s
        = nftw_walk (delete_callback { g with search_ext := some E } removable) es
            (delete_callback { g with search_ext := some E } removable s e).2 := by
  have hstep := delete_callback_step g E removable s e
  rw [if_pos ⟨hf, (lastDotSuffix_iff_strrchr _ _).mp hE⟩] at hstep
  refine ⟨?_, ?_, ?_, ?_, ?_⟩
  · rw [hstep]
  · rw [hstep]
  · rw [hstep]
  · intro hr
    rw [hstep]
    simp [sys_remove, hr]
  · intro es
    rw [nftw_walk, if_neg]
    rw [hstep]
    simp

/-- Witness for `delete_callback_soft`: the file `a.txt`, extension `.txt`, a `remove` that
fails. -/
theorem delete_callback_soft_witness :
    LastDotSuffix "a.txt".toList ".txt".toList
    ∧ (delete_callback { Globals.init with search_ext := some ".txt".toList } (fun _ => false)
        { tree := [], trace := [], out := [] }
        { path := "a.txt".toList, sb := { st_size := 5, st_mode := 420 },
          typeflag := FTW_F }).1 = 0 :=
  ⟨⟨['a'], ['t', 'x', 't'], rfl, by decide, rfl⟩,
   (delete_callback_soft Globals.init ".txt".toList (fun _ => false)
      { tree := [], trace := [], out := [] }
      { path := "a.txt".toList, sb := { st_size := 5, st_mode := 420 }, typeflag := FTW_F }
      rfl ⟨['a'], ['t', 'x', 't'], rfl, by decide, rfl⟩).1⟩

/-- C6 (counterexample): for the matching file `a.txt` and a `remove` that fails,
`delete_callback` returns 0 and the file stays in the tree, but what it prints is
the confirmation line `Deleted: a.txt`, the same output as when the `remove` succeeds. -/
theorem delete_callback_failed_remove_output :
    (delete_callback { Globals.init with search_ext := some ".txt".toList } (fun _ => false)
        { tree := [{ path := "a.txt".toList, sb := { st_size := 5, st_mode := 420 },
                     typeflag := FTW_F }], trace := [], out := [] }
        { path := "a.txt".toList, sb := { st_size := 5, st_mode := 420 },
          typeflag := FTW_F }).1 = 0
    ∧ (delete_callback { Globals.init with search_ext := some ".txt".toList } (fun _ => false)
        { tree := [{ path := "a.txt".toList, sb := { st_size := 5, st_mode := 420 },
                     typeflag := FTW_F }], trace := [], out := [] }
        { path := "a.txt".toList, sb := { st_size := 5, st_mode := 420 },
          typeflag := FTW_F }).2.tree
        = [{ path := "a.txt".toList, sb := { st_size := 5, st_mode := 420 },
             typeflag := FTW_F }]
    ∧ (delete_callback { Globals.init with search_ext := some ".txt".toList } (fun _ => false)
        { tree := [{ path := "a.txt".toList, sb := { st_size := 5, st_mode := 420 },
                     typeflag := FTW_F }], trace := [], out := [] }
        { path := "a.txt".toList, sb := { st_size := 5, st_mode := 420 },
          typeflag := FTW_F }).2.out = ["Deleted: a.txt".toList]
    ∧ (delete_callback { Globals.init with search_ext := some ".txt".toList } (fun _ => true)
        { tree := [{ path := "a.txt".toList, sb := { st_size := 5, st_mode := 420 },
                     typeflag := FTW_F }], trace := [], out := [] }
        { path := "a.txt".toList, sb := { st_size := 5, st_mode := 420 },
          typeflag := FTW_F }).2.out = ["Deleted: a.txt".toList]
    ∧ (delete_callback { Globals.init with search_ext := some ".txt".toList } (fun _ => true)
        { tree := [{ path := "a.txt".toList, sb := { st_size := 5, st_mode := 420 },
                     typeflag := FTW_F }], trace := [], out := [] }
        { path := "a.txt".toList, sb := { st_size := 5, st_mode := 420 },
          typeflag := FTW_F }).2.tree = [] := by
  refine ⟨by decide, by decide, by decide, by decide, by decide⟩

/-! ## copy_callback -/

theorem sys_read_some (env : CopyEnv) (i : Nat) (rest c : List Byte)
    (h : sys_read env i rest = some c) :
    c.length ≤ BUFFER_SIZE ∧ c ++ rest.drop c.length = rest ∧ (c = [] → rest = []) := by
  unfold sys_read at h
  cases hk : env.read_avail i with
  | none => simp [hk] at h
  | some k =>
    simp only [hk, Option.some.injEq] at h
    subst h
    refine ⟨?_, ?_, ?_⟩
    · rw [List.length_take]
      omega
    · rw [List.length_take]
      by_cases hle : min (max k 1) BUFFER_SIZE ≤ rest.length
      · rw [Nat.min_eq_left hle]
        exact List.take_append_drop _ _
      · have hlt : rest.length ≤ min (max k 1) BUFFER_SIZE := by omega
        rw [Nat.min_eq_right hlt, List.take_of_length_le hlt]
        simp
    · intro hnil
      have hlen := congrArg List.length hnil
      rw [List.length_take] at hlen
      have h1 : 1 ≤ min (max k 1) BUFFER_SIZE := by
        unfold BUFFER_SIZE
        omega
      simp only [List.length_nil] at hlen
      exact List.length_eq_zero.mp (by omega)

theorem sys_read_ne_none (env : CopyEnv) (i : Nat) (rest : List Byte)
    (h : env.read_avail i ≠ none) : sys_read env i rest ≠ none := by
  unfold sys_read
  cases hk : env.read_avail i with
  | none => exact absurd hk h
  | some k => simp

theorem copy_loop_terminates (env : CopyEnv) (src_fd dest_fd : Nat) :
    ∀ (fuel i : Nat) (rest : List Byte) (s : CopyState), rest.length < fuel →
      ∃ r, copy_loop env src_fd dest_fd fuel i rest s = some r := by
  intro fuel
  induction fuel with
  | zero => intro i rest s h; omega
  | succ n ih =>
    intro i rest s h
    unfold copy_loop
    cases hr : sys_read env i rest with
    | none => exact ⟨_, rfl⟩
    | some c =>
      cases c with
      | nil => exact ⟨_, rfl⟩
      | cons b bs =>
        obtain ⟨-, h2, -⟩ := sys_read_some env i rest (b :: bs) hr
        have hlen := congrArg List.length h2
        simp only [List.length_append, List.length_cons] at hlen
        apply ih
        simp only [List.length_cons]
        omega

theorem open_descriptors_append_io (t : List Syscall) (src_fd dest_fd : Nat)
    (r : Option (List Byte)) (buf : List Byte) :
    open_descriptors (t ++ [Syscall.read src_fd r]) = open_descriptors t
    ∧ open_descriptors (t ++ [Syscall.read src_fd r, Syscall.write dest_fd buf])
        = open_descriptors t := by
  unfold open_descriptors
  simp [List.foldl_append, track_fd]

theorem copy_loop_spec (env : CopyEnv) (src_fd dest_fd : Nat) :
    ∀ (fuel i : Nat) (rest : List Byte) (s r : CopyState),
      copy_loop env src_fd dest_fd fuel i rest s = some r →
      ∃ W : List (List Byte),
        reads_of r.trace = reads_of s.trace ++ W
        ∧ writes_of r.trace = writes_of s.trace ++ W
        ∧ (∀ c ∈ W, c ≠ [] ∧ c.length ≤ BUFFER_SIZE)
        ∧ W.flatten <+: rest
        ∧ open_descriptors r.trace = open_descriptors s.trace
        ∧ ((∀ j, env.read_avail j ≠ none) → W.flatten = rest)
        ∧ ((∀ j, env.write_done j = none) → r.dest = s.dest ++ W.flatten) := by
  intro fuel
  induction fuel with
  | zero =>
    intro i rest s r h
    simp [copy_loop] at h
  | succ n ih =>
    intro i rest s r h
    unfold copy_loop at h
    cases hr : sys_read env i rest with
    | none =>
      simp only [hr, Option.some.injEq] at h
      subst h
      refine ⟨[], ?_, ?_, ?_, ?_, ?_, ?_, ?_⟩
      · simp [reads_of, List.filterMap_append, read_chunk]
      · simp [writes_of, List.filterMap_append, write_chunk]
      · simp
      · simp
      · exact (open_descriptors_append_io s.trace src_fd dest_fd none []).1
      · intro hall
        exact absurd hr (sys_read_ne_none env i rest (hall i))
      · intro _
        simp
    | some c =>
      cases c with
      | nil =>
        simp only [hr, Option.some.injEq] at h
        subst h
        have hnil := (sys_read_some env i rest [] hr).2.2 rfl
        refine ⟨[], ?_, ?_, ?_, ?_, ?_, ?_, ?_⟩
        · simp [reads_of, List.filterMap_append, read_chunk]
        · simp [writes_of, List.filterMap_append, write_chunk]
        · simp
        · simp
        · exact (open_descriptors_append_io s.trace src_fd dest_fd (some []) []).1
        · intro _
          simp [hnil]
        · intro _
          simp
      | cons b bs =>
        simp only [hr] at h
        obtain ⟨hlen, happ, -⟩ := sys_read_some env i rest (b :: bs) hr
        obtain ⟨W, h1, h2, h3, h4, h5, h6, h7⟩ := ih _ _ _ _ h
        refine ⟨(b :: bs) :: W, ?_, ?_, ?_, ?_, ?_, ?_, ?_⟩
        · rw [h1]
          simp [reads_of, List.filterMap_append, read_chunk]
        · rw [h2]
          simp [writes_of, List.filterMap_append, write_chunk]
        · intro c hc
          rcases List.mem_cons.mp hc with hc | hc
          · subst hc
            exact ⟨by simp, hlen⟩
          · exact h3 c hc
        · rw [List.flatten_cons]
          conv_rhs => rw [← happ]
          exact (List.prefix_append_right_inj _).mpr h4
        · rw [h5]
          exact (open_descriptors_append_io s.trace src_fd dest_fd (some (b :: bs)) (b :: bs)).2
        · intro hall
          rw [List.flatten_cons, h6 hall]
          exact happ
        · intro hall
          rw [h7 hall, List.flatten_cons]
          simp [sys_write, hall i]

theorem copy_loop_trace_prefix (env : CopyEnv) (src_fd dest_fd : Nat) :
    ∀ (fuel i : Nat) (rest : List Byte) (s r : CopyState),
      copy_loop env src_fd dest_fd fuel i rest s = some r → ∃ t, r.trace = s.trace ++ t := by
  intro fuel
  induction fuel with
  | zero =>
    intro i rest s r h
    simp [copy_loop] at h
  | succ n ih =>
    intro i rest s r h
    unfold copy_loop at h
    cases hr : sys_read env i rest with
    | none =>
      simp only [hr, Option.some.injEq] at h
      subst h
      exact ⟨_, rfl⟩
    | some c =>
      cases c with
      | nil =>
        simp only [hr, Option.some.injEq] at h
        subst h
        exact ⟨_, rfl⟩
      | cons b bs =>
        simp only [hr] at h
        obtain ⟨t, ht⟩ := ih _ _ _ _ h
        exact ⟨_, by rw [ht, List.append_assoc]⟩

theorem construct_dest_path_defined (g : Globals) (path : CStr)
    (h : g.src_root.length ≤ path.length) :
    ∃ dp, construct_dest_path g path = some dp := by
  unfold construct_dest_path
  rw [if_pos h]
  exact ⟨_, rfl⟩

theorem copy_wanted_eq_false_iff (g : Globals) (path : CStr) :
    copy_wanted g path = false ↔ ∃ E, g.exclude_ext = some E ∧ LastDotSuffix path E := by
  simp only [lastDotSuffix_iff_strrchr]
  unfold copy_wanted
  cases hx : g.exclude_ext with
  | none => simp
  | some x =>
    cases hs : strrchr path '.' with
    | none => simp
    | some ext =>
      simp only [ne_eq, decide_not, Bool.not_eq_false_eq_eq_true, decide_eq_true_eq,
        Option.some.injEq, exists_eq_left']
      rw [strcmp_eq_zero_iff]

theorem copy_wanted_iff_not_excluded (g : Globals) (e : Entry) (hf : e.typeflag = FTW_F) :
    copy_wanted g e.path = true ↔ ¬ Excluded g e := by
  unfold Excluded
  rw [← copy_wanted_eq_false_iff]
  simp [hf]

theorem copy_callback_dir (g : Globals) (env : CopyEnv) (e : Entry) (dp : CStr)
    (hdp : construct_dest_path g e.path = some dp) (hd : e.typeflag = FTW_D) :
    copy_callback g env e
      = some { ret := 0, trace := [Syscall.mkdir dp e.sb.st_mode env.mkdir_ret], dest_path := dp,
               dest := none } := by
  unfold copy_callback
  simp only [hdp, hd, if_true]

theorem copy_callback_skip (g : Globals) (env : CopyEnv) (e : Entry) (dp : CStr)
    (hdp : construct_dest_path g e.path = some dp) (hd : e.typeflag ≠ FTW_D)
    (hskip : e.typeflag = FTW_F → Excluded g e) :
    copy_callback g env e
      = some { ret := 0, trace := [], dest_path := dp, dest := none } := by
  unfold copy_callback
  simp only [hdp, if_neg hd]
  by_cases hf : e.typeflag = FTW_F
  · have hw : ¬ copy_wanted g e.path = true := by
      rw [copy_wanted_iff_not_excluded g e hf]
      exact fun hn => hn (hskip hf)
    rw [if_pos hf, if_neg hw]
  · rw [if_neg hf]

theorem copy_callback_src_fails (g : Globals) (env : CopyEnv) (e : Entry) (dp : CStr)
    (hdp : construct_dest_path g e.path = some dp) (hf : e.typeflag = FTW_F)
    (hw : ¬ Excluded g e) (hsrc : env.open_src = none) :
    copy_callback g env e
      = some { ret := -1
               trace := [Syscall.open_rdonly e.path none, Syscall.perror err_open_source]
               dest_path := dp, dest := none } := by
  have hd : e.typeflag ≠ FTW_D := by rw [hf]; decide
  have hw2 := (copy_wanted_iff_not_excluded g e hf).mpr hw
  unfold copy_callback
  simp only [hdp, if_neg hd, if_pos hf, hw2, if_true, hsrc]

theorem copy_callback_dest_fails (g : Globals) (env : CopyEnv) (e : Entry) (dp : CStr)
    (src_fd : Nat) (content : List Byte)
    (hdp : construct_dest_path g e.path = some dp) (hf : e.typeflag = FTW_F)
    (hw : ¬ Excluded g e) (hsrc : env.open_src = some (src_fd, content))
    (hdst : env.open_dest = none) :
    copy_callback g env e
      = some { ret := -1
               trace := [Syscall.open_rdonly e.path (some src_fd),
                         Syscall.open_creat_trunc dp e.sb.st_mode none,
                         Syscall.perror err_create_dest, Syscall.close src_fd]
               dest_path := dp, dest := none } := by
  have hd : e.typeflag ≠ FTW_D := by rw [hf]; decide
  have hw2 := (copy_wanted_iff_not_excluded g e hf).mpr hw
  unfold copy_callback
  simp only [hdp, if_neg hd, if_pos hf, hw2, if_true, hsrc, hdst]

theorem copy_callback_copies (g : Globals) (env : CopyEnv) (e : Entry) (dp : CStr)
    (src_fd dest_fd : Nat) (content : List Byte)
    (hdp : construct_dest_path g e.path = some dp) (hf : e.typeflag = FTW_F)
    (hw : ¬ Excluded g e) (hsrc : env.open_src = some (src_fd, content))
    (hdst : env.open_dest = some dest_fd) :
    ∃ s, copy_loop env src_fd dest_fd (content.length + 1) 0 content
            { trace := [Syscall.open_rdonly e.path (some src_fd),
                        Syscall.open_creat_trunc dp e.sb.st_mode (some dest_fd)]
              dest := [] } = some s
      ∧ copy_callback g env e
          = some { ret := 0
                   trace := s.trace ++ [Syscall.close src_fd, Syscall.close dest_fd]
                   dest_path := dp, dest := some s.dest } := by
  have hd : e.typeflag ≠ FTW_D := by rw [hf]; decide
  have hw2 := (copy_wanted_iff_not_excluded g e hf).mpr hw
  obtain ⟨s, hs⟩ := copy_loop_terminates env src_fd dest_fd (content.length + 1) 0 content
    { trace := [Syscall.open_rdonly e.path (some src_fd),
                Syscall.open_creat_trunc dp e.sb.st_mode (some dest_fd)]
      dest := [] } (Nat.lt_succ_self _)
  refine ⟨s, hs, ?_⟩
  unfold copy_callback
  simp only [hdp, if_neg hd, if_pos hf, hw2, if_true, hsrc, hdst, hs]

theorem open_descriptors_closed (t : List Syscall) (src_fd dest_fd : Nat)
    (h : open_descriptors t = [dest_fd, src_fd]) :
    open_descriptors (t ++ [Syscall.close src_fd, Syscall.close dest_fd]) = [] := by
  unfold open_descriptors at h ⊢
  rw [List.foldl_append, h]
  by_cases hx : dest_fd = src_fd
  · subst hx
    simp [track_fd]
  · have hx2 : ¬ src_fd = dest_fd := fun h => hx h.symm
    simp [track_fd, List.erase_cons, hx, hx2]

/-- C7: for an entry whose path is at least as long as the source root (as every path
visited under the source root is, so that `construct_dest_path` stays inside the path),
and for every outcome of `mkdir`, `open`, `read` and `write`, `copy_callback` returns; it returns
non-zero (the value -1) exactly when the entry is a file that is not excluded and the
source cannot be opened or the destination cannot be created, and 0 in every other case;
when the destination cannot be created the calls end with the `close` of the source
descriptor, after a complete copy they end with the `close` of both descriptors, and in
every case no descriptor opened by the call is open at return. -/
theorem copy_callback_abort_iff (g : Globals) (env : CopyEnv) (e : Entry)
    (hlen : g.src_root.length ≤ e.path.length) :
    ∃ r, copy_callback g env e = some r
      ∧ (r.ret ≠ 0 ↔
          e.typeflag = FTW_F ∧ ¬ Excluded g e ∧ (env.open_src = none ∨ env.open_dest = none))
      ∧ (r.ret = 0 ∨ r.ret = -1)
      ∧ open_descriptors r.trace = []
      ∧ (∀ src_fd content, e.typeflag = FTW_F → ¬ Excluded g e →
          env.open_src = some (src_fd, content) → env.open_dest = none →
          ∃ t, r.trace = Syscall.open_rdonly e.path (some src_fd) :: t ++ [Syscall.close src_fd])
      ∧ (∀ src_fd content dest_fd, e.typeflag = FTW_F → ¬ Excluded g e →
          env.open_src = some (src_fd, content) → env.open_dest = some dest_fd →
          ∃ t, r.trace = t ++ [Syscall.close src_fd, Syscall.close dest_fd]) := by
  obtain ⟨dp, hdp⟩ := construct_dest_path_defined g e.path hlen
  by_cases hd : e.typeflag = FTW_D
  · have hnf : e.typeflag ≠ FTW_F := by rw [hd]; decide
    refine ⟨_, copy_callback_dir g env e dp hdp hd, ?_, Or.inl rfl, ?_, ?_, ?_⟩
    · simp [hnf]
    · simp [open_descriptors, track_fd]
    · intro _ _ hf
      exact absurd hf hnf
    · intro _ _ _ hf
      exact absurd hf hnf
  · by_cases hskip : e.typeflag = FTW_F → Excluded g e
    · refine ⟨_, copy_callback_skip g env e dp hdp hd hskip, ?_, Or.inl rfl, ?_, ?_, ?_⟩
      · simp only [ne_eq, not_true_eq_false, false_iff, not_and]
        intro hf hne
        exact absurd (hskip hf) hne
      · simp [open_descriptors]
      · intro _ _ hf hne
        exact absurd (hskip hf) hne
      · intro _ _ _ hf hne
        exact absurd (hskip hf) hne
    · have hf : e.typeflag = FTW_F := by
        by_contra hc
        exact hskip (fun h => absurd h hc)
      have hw : ¬ Excluded g e := fun hx => hskip (fun _ => hx)
      cases hsrc : env.open_src with
      | none =>
        refine ⟨_, copy_callback_src_fails g env e dp hdp hf hw hsrc, ?_, Or.inr rfl, ?_, ?_, ?_⟩
        · simp [hf, hw]
        · simp [open_descriptors, track_fd]
        · intro _ _ _ _ h
          cases h
        · intro _ _ _ _ _ h
          cases h
      | some sc =>
        obtain ⟨src_fd, content⟩ := sc
        cases hdst : env.open_dest with
        | none =>
          refine ⟨_, copy_callback_dest_fails g env e dp src_fd content hdp hf hw hsrc hdst,
            ?_, Or.inr rfl, ?_, ?_, ?_⟩
          · simp [hf, hw]
          · simp [open_descriptors, track_fd]
          · intro fd c _ _ h _
            simp only [Option.some.injEq, Prod.mk.injEq] at h
            obtain ⟨h1, -⟩ := h
            subst h1
            exact ⟨[Syscall.open_creat_trunc dp e.sb.st_mode none,
              Syscall.perror err_create_dest], rfl⟩
          · intro _ _ _ _ _ _ h
            cases h
        | some dest_fd =>
          obtain ⟨s, hs, hcb⟩ :=
            copy_callback_copies g env e dp src_fd dest_fd content hdp hf hw hsrc hdst
          obtain ⟨W, -, -, -, -, hfd, -, -⟩ := copy_loop_spec env src_fd dest_fd _ _ _ _ _ hs
          refine ⟨_, hcb, ?_, Or.inl rfl, ?_, ?_, ?_⟩
          · simp
          · apply open_descriptors_closed
            rw [hfd]
            simp [open_descriptors, track_fd]
          · intro _ _ _ _ _ h
            cases h
          · intro fd c dfd _ _ h1 h2
            simp only [Option.some.injEq, Prod.mk.injEq] at h1 h2
            obtain ⟨h1, -⟩ := h1
            subst h1 h2
            exact ⟨s.trace, rfl⟩

/-- Witness for `copy_callback_abort_iff`: copying `src/a` when the destination cannot be
created returns -1 and ends with the `close` of the source descriptor. -/
theorem copy_callback_abort_iff_witness :
    sample_globals.src_root.length ≤ sample_file.path.length
    ∧ ∃ r, copy_callback sample_globals sample_env_no_dest sample_file = some r
      ∧ r.ret = -1 ∧ open_descriptors r.trace = []
      ∧ ∃ t, r.trace = Syscall.open_rdonly sample_file.path (some 3) :: t ++ [Syscall.close 3] := by
  have hpre : sample_globals.src_root.length ≤ sample_file.path.length := by decide
  obtain ⟨r, h1, h2, h3, h4, h5, -⟩ :=
    copy_callback_abort_iff sample_globals sample_env_no_dest sample_file hpre
  have hf : sample_file.typeflag = FTW_F := rfl
  have hne : ¬ Excluded sample_globals sample_file := by
    rw [← copy_wanted_iff_not_excluded _ _ hf]
    decide
  have hret : r.ret ≠ 0 := h2.mpr ⟨hf, hne, Or.inr rfl⟩
  refine ⟨hpre, r, h1, ?_, h4, h5 3 [104, 105, 10] hf hne rfl rfl⟩
  rcases h3 with h | h
  · exact absurd h hret
  · exact h

/-- C8 (as amended): for an entry whose path is at least as long as the source root (as
every path visited under the source root is) and any exclude setting: an excluded
file (a file whose extension is the exclude extension) makes `copy_callback` issue no call
at all; a file that is not excluded (no exclude extension configured, or no `.` in the
path, or another extension) makes it open the source and, once that succeeds, create the
destination at the computed destination path with the mode of the source, the content
arriving there when the destination opens and every read and write succeeds; a directory
makes it issue `mkdir` for the destination path with the mode of the source and return 0,
whatever the exclude extension and whatever `mkdir` returns. -/
theorem copy_callback_exclusion (g : Globals) (env : CopyEnv) (e : Entry)
    (hlen : g.src_root.length ≤ e.path.length) :
    ∃ r dp, construct_dest_path g e.path = some dp ∧ copy_callback g env e = some r
      ∧ r.dest_path = dp
      ∧ (Excluded g e → r.ret = 0 ∧ r.trace = [] ∧ r.dest = none)
      ∧ (e.typeflag = FTW_F →
          (g.exclude_ext = none ∨ '.' ∉ e.path
            ∨ ∃ E, g.exclude_ext = some E ∧ ¬ LastDotSuffix e.path E) →
          (∃ t, r.trace = Syscall.open_rdonly e.path (env.open_src.map Prod.fst) :: t)
          ∧ ∀ src_fd content, env.open_src = some (src_fd, content) →
              (∃ t, r.trace = Syscall.open_rdonly e.path (some src_fd)
                  :: Syscall.open_creat_trunc dp e.sb.st_mode env.open_dest :: t)
              ∧ ((∃ dest_fd, env.open_dest = some dest_fd) →
                  (∀ j, env.read_avail j ≠ none) → (∀ j, env.write_done j = none) →
                  r.ret = 0 ∧ r.dest = some content))
      ∧ (e.typeflag = FTW_D → r.ret = 0 ∧ r.trace = [Syscall.mkdir dp e.sb.st_mode env.mkdir_ret]) := by
  obtain ⟨dp, hdp⟩ := construct_dest_path_defined g e.path hlen
  have hcase : (g.exclude_ext = none ∨ '.' ∉ e.path
      ∨ ∃ E, g.exclude_ext = some E ∧ ¬ LastDotSuffix e.path E) → ¬ Excluded g e := by
    rintro (h | h | ⟨E, h1, h2⟩) ⟨-, E2, h3, h4⟩
    · rw [h] at h3
      cases h3
    · exact h (lastDotSuffix_mem _ _ h4)
    · rw [h1] at h3
      cases h3
      exact h2 h4
  by_cases hd : e.typeflag = FTW_D
  · have hnf : e.typeflag ≠ FTW_F := by rw [hd]; decide
    refine ⟨_, dp, hdp, copy_callback_dir g env e dp hdp hd, rfl, ?_, ?_, ?_⟩
    · intro hx
      exact absurd hx.1 hnf
    · intro hf
      exact absurd hf hnf
    · intro _
      exact ⟨rfl, rfl⟩
  · by_cases hskip : e.typeflag = FTW_F → Excluded g e
    · refine ⟨_, dp, hdp, copy_callback_skip g env e dp hdp hd hskip, rfl, ?_, ?_, ?_⟩
      · intro _
        exact ⟨rfl, rfl, rfl⟩
      · intro hf hc
        exact absurd (hskip hf) (hcase hc)
      · intro h
        exact absurd h hd
    · have hf : e.typeflag = FTW_F := by
        by_contra hc
        exact hskip (fun h => absurd h hc)
      have hw : ¬ Excluded g e := fun hx => hskip (fun _ => hx)
      cases hsrc : env.open_src with
      | none =>
        refine ⟨_, dp, hdp, copy_callback_src_fails g env e dp hdp hf hw hsrc, rfl, ?_, ?_, ?_⟩
        · intro hx
          exact absurd hx hw
        · intro _ _
          refine ⟨⟨_, rfl⟩, ?_⟩
          intro _ _ h
          cases h
        · intro h
          exact absurd h hd
      | some sc =>
        obtain ⟨src_fd, content⟩ := sc
        cases hdst : env.open_dest with
        | none =>
          refine ⟨_, dp, hdp,
            copy_callback_dest_fails g env e dp src_fd content hdp hf hw hsrc hdst, rfl,
            ?_, ?_, ?_⟩
          · intro hx
            exact absurd hx hw
          · intro _ _
            refine ⟨⟨_, rfl⟩, ?_⟩
            intro fd c h
            simp only [Option.some.injEq, Prod.mk.injEq] at h
            obtain ⟨h1, h2⟩ := h
            subst h1 h2
            refine ⟨⟨_, rfl⟩, ?_⟩
            rintro ⟨_, h⟩
            cases h
          · intro h
            exact absurd h hd
        | some dest_fd =>
          obtain ⟨s, hs, hcb⟩ :=
            copy_callback_copies g env e dp src_fd dest_fd content hdp hf hw hsrc hdst
          obtain ⟨W, hr, -, -, -, -, hread, hwrite⟩ :=
            copy_loop_spec env src_fd dest_fd _ _ _ _ _ hs
          obtain ⟨t, ht⟩ : ∃ t, s.trace = Syscall.open_rdonly e.path (some src_fd)
              :: Syscall.open_creat_trunc dp e.sb.st_mode (some dest_fd) :: t :=
            copy_loop_trace_prefix env src_fd dest_fd _ _ _ _ _ hs
          refine ⟨_, dp, hdp, hcb, rfl, ?_, ?_, ?_⟩
          · intro hx
            exact absurd hx hw
          · intro _ _
            refine ⟨⟨Syscall.open_creat_trunc dp e.sb.st_mode (some dest_fd)
                :: t ++ [Syscall.close src_fd, Syscall.close dest_fd], ?_⟩, ?_⟩
            · simp [ht]
            · intro fd c h
              simp only [Option.some.injEq, Prod.mk.injEq] at h
              obtain ⟨h1, h2⟩ := h
              subst h1 h2
              refine ⟨⟨t ++ [Syscall.close src_fd, Syscall.close dest_fd], ?_⟩, ?_⟩
              · simp [ht]
              · intro _ hrd hwr
                refine ⟨rfl, ?_⟩
                simp only [Option.some.injEq]
                rw [hwrite hwr, hread hrd]
                simp
          · intro h
            exact absurd h hd

/-- Witness for `copy_callback_exclusion`: with `.log` excluded, the file `src/b.log` makes
`copy_callback` issue no call. -/
theorem copy_callback_exclusion_witness :
    sample_globals.src_root.length ≤ sample_log_file.path.length
    ∧ Excluded sample_globals sample_log_file
    ∧ ∃ r, copy_callback sample_globals sample_env sample_log_file = some r
        ∧ r.ret = 0 ∧ r.trace = [] ∧ r.dest = none := by
  have hpre : sample_globals.src_root.length ≤ sample_log_file.path.length := by decide
  have hex : Excluded sample_globals sample_log_file :=
    ⟨rfl, ['.', 'l', 'o', 'g'], rfl, ['s', 'r', 'c', '/', 'b'], ['l', 'o', 'g'], rfl,
      by decide, rfl⟩
  obtain ⟨r, dp, -, h1, -, h2, -, -⟩ :=
    copy_callback_exclusion sample_globals sample_env sample_log_file hpre
  exact ⟨hpre, hex, r, h1, h2 hex⟩

/-- C8 (counterexample): with `.log` excluded, the file `src/a` (no `.` in its path) is not
excluded, yet it is not copied when the source cannot be opened (return value -1, no
destination), and only its first two bytes arrive when the second `write` fails (return
value 0); and for the directory `src/d` a `mkdir` that fails leaves the return value 0. -/
theorem copy_callback_not_copied_counterexample :
    sample_globals.exclude_ext = some ['.', 'l', 'o', 'g']
    ∧ sample_file.typeflag = FTW_F ∧ '.' ∉ sample_file.path
    ∧ (copy_callback sample_globals sample_env_no_src sample_file).map
        (fun r => (r.ret, r.dest)) = some (-1, none)
    ∧ sample_env_short_write.open_src = some (3, [104, 105, 10])
    ∧ sample_env_short_write.open_dest = some 4
    ∧ (copy_callback sample_globals sample_env_short_write sample_file).map
        (fun r => (r.ret, r.dest)) = some (0, some [104, 105])
    ∧ (copy_callback sample_globals sample_env_short_write sample_dir).map
        (fun r => (r.ret, r.trace))
        = some (0, [Syscall.mkdir ['d', 's', 't', '/', 'd'] 493 (-1)]) := by
  refine ⟨rfl, rfl, by decide, by decide, rfl, rfl, by decide, by decide⟩

/-- C9 (as amended): for a file that is not excluded and whose path is at least as long as
the source root (as every path visited under the source root is), when both opens
succeed, the call returns, each chunk written is exactly the non-empty chunk just read, at
most 4096 bytes long and in the order read, and the chunks written make up a prefix of the
source; provided no `read` fails and every `write` writes all its bytes, the destination file
(truncated on open) ends with exactly the content of the source, whatever its length. -/
theorem copy_callback_fidelity (g : Globals) (env : CopyEnv) (e : Entry)
    (src_fd dest_fd : Nat) (content : List Byte)
    (hlen : g.src_root.length ≤ e.path.length) (hf : e.typeflag = FTW_F) (hne : ¬ Excluded g e)
    (hsrc : env.open_src = some (src_fd, content)) (hdst : env.open_dest = some dest_fd) :
    ∃ r, copy_callback g env e = some r ∧ r.ret = 0
      ∧ writes_of r.trace = reads_of r.trace
      ∧ (∀ c ∈ writes_of r.trace, c ≠ [] ∧ c.length ≤ BUFFER_SIZE)
      ∧ (writes_of r.trace).flatten <+: content
      ∧ ((∀ j, env.read_avail j ≠ none) → (∀ j, env.write_done j = none) →
          r.dest = some content ∧ (writes_of r.trace).flatten = content) := by
  obtain ⟨dp, hdp⟩ := construct_dest_path_defined g e.path hlen
  obtain ⟨s, hs, hcb⟩ :=
    copy_callback_copies g env e dp src_fd dest_fd content hdp hf hne hsrc hdst
  obtain ⟨W, hr, hw, hchunk, hprefix, -, hread, hwrite⟩ :=
    copy_loop_spec env src_fd dest_fd _ _ _ _ _ hs
  have hr2 : reads_of (s.trace ++ [Syscall.close src_fd, Syscall.close dest_fd]) = W := by
    unfold reads_of at hr ⊢
    rw [List.filterMap_append, hr]
    simp [read_chunk]
  have hw2 : writes_of (s.trace ++ [Syscall.close src_fd, Syscall.close dest_fd]) = W := by
    unfold writes_of at hw ⊢
    rw [List.filterMap_append, hw]
    simp [write_chunk]
  refine ⟨_, hcb, rfl, ?_, ?_, ?_, ?_⟩
  · simp only [hr2, hw2]
  · simp only [hw2]
    exact hchunk
  · simp only [hw2]
    exact hprefix
  · intro hrd hwr
    simp only [hw2, Option.some.injEq]
    refine ⟨?_, hread hrd⟩
    rw [hwrite hwr, hread hrd]
    simp

/-- Witness for `copy_callback_fidelity`: the three bytes of `src/a` arrive at the
destination when every call succeeds. -/
theorem copy_callback_fidelity_witness :
    ∃ r, copy_callback sample_globals sample_env sample_file = some r
      ∧ r.dest = some [104, 105, 10] ∧ writes_of r.trace = reads_of r.trace := by
  have hne : ¬ Excluded sample_globals sample_file := by
    rw [← copy_wanted_iff_not_excluded _ _ rfl]
    decide
  obtain ⟨r, h1, -, h3, -, -, h6⟩ :=
    copy_callback_fidelity sample_globals sample_env sample_file 3 4 [104, 105, 10]
      (by decide) rfl hne rfl rfl
  exact ⟨r, h1, (h6 (fun _ => by simp [sample_env]) (fun _ => rfl)).1, h3⟩

/-- C9 (counterexample): both opens succeed and the source holds three bytes, but every
`write` fails; `copy_callback` still returns 0 and the destination file is left empty. -/
theorem copy_callback_write_failure_counterexample :
    sample_env_write_fails.open_src = some (3, [104, 105, 10])
    ∧ sample_env_write_fails.open_dest = some 4
    ∧ (copy_callback sample_globals sample_env_write_fails sample_file).map
        (fun r => (r.ret, r.dest)) = some (0, some [])
    ∧ (copy_callback sample_globals sample_env_write_fails sample_file).map
        (fun r => r.dest) ≠ some (some [104, 105, 10]) := by
  refine ⟨rfl, rfl, by decide, by decide⟩

/-! ## main -/

/-- C1 (the code at the failing inputs): `main` hands `list_callback` to the walk for `-ls`
and `ext_callback` for `-ext` with an extension, but for `-count-files`, `-count-dirs`,
`-size`, `-delete`, `-copy` and `-move`, each with its required arguments, it takes the
`Invalid option or missing arguments.` branch: exit status `EXIT_FAILURE` and no walk. -/
theorem main_dispatch_missing_options :
    main ["dtree".toList, "-ls".toList, "root".toList] 0
      = { status := 0, walk := some ("root".toList, Callback.list), search_ext := none,
          err := [] }
    ∧ main ["dtree".toList, "-ext".toList, "root".toList, ".txt".toList] 0
      = { status := 0, walk := some ("root".toList, Callback.ext),
          search_ext := some ".txt".toList, err := [] }
    ∧ main ["dtree".toList, "-count-files".toList, "root".toList] 0
      = { status := 1, walk := none, search_ext := none, err := [invalid_line] }
    ∧ main ["dtree".toList, "-count-dirs".toList, "root".toList] 0
      = { status := 1, walk := none, search_ext := none, err := [invalid_line] }
    ∧ main ["dtree".toList, "-size".toList, "root".toList] 0
      = { status := 1, walk := none, search_ext := none, err := [invalid_line] }
    ∧ main ["dtree".toList, "-delete".toList, "root".toList, ".log".toList] 0
      = { status := 1, walk := none, search_ext := none, err := [invalid_line] }
    ∧ main ["dtree".toList, "-copy".toList, "root".toList, "dest".toList] 0
      = { status := 1, walk := none, search_ext := none, err := [invalid_line] }
    ∧ main ["dtree".toList, "-copy".toList, "root".toList, "dest".toList, ".log".toList] 0
      = { status := 1, walk := none, search_ext := none, err := [invalid_line] }
    ∧ main ["dtree".toList, "-move".toList, "root".toList, "dest".toList] 0
      = { status := 1, walk := none, search_ext := none, err := [invalid_line] } := by
  refine ⟨by decide, by decide, by decide, by decide, by decide, by decide, by decide,
    by decide, by decide⟩

theorem strcmp_self (a : CStr) : strcmp a a = 0 :=
  (strcmp_eq_zero_iff a a).mpr rfl

/-- C2 (as amended): with fewer than two arguments after the program name `main` returns
non-zero without starting a walk; for `-ls` with a root, and for `-ext` with a root and
exactly one extension, it starts the walk and returns 0; its result is the same for every
outcome of the walk; it returns 0 exactly when it has started a walk; and for an option
that is none of the eight of the command surface, as for `-ext` without exactly one
extension after the root, it writes the invalid-option line and returns non-zero without
starting a walk. -/
theorem main_status (argv : List CStr) (nftw_ret : Int) :
    (argv.length < 3 →
        (main argv nftw_ret).status = EXIT_FAILURE ∧ (main argv nftw_ret).walk = none
          ∧ (main argv nftw_ret).err = [usage_line])
    ∧ (∀ prog root rest,
        argv = prog :: "-ls".toList :: root :: rest →
        (main argv nftw_ret).status = EXIT_SUCCESS
          ∧ (main argv nftw_ret).walk = some (root.take MAX_PATH, Callback.list))
    ∧ (∀ prog root ext,
        argv = [prog, "-ext".toList, root, ext] →
        (main argv nftw_ret).status = EXIT_SUCCESS
          ∧ (main argv nftw_ret).walk = some (root.take MAX_PATH, Callback.ext)
          ∧ (main argv nftw_ret).search_ext = some ext)
    ∧ (∀ other : Int, main argv other = main argv nftw_ret)
    ∧ ((main argv nftw_ret).status ≠ 0 → (main argv nftw_ret).walk = none)
    ∧ ((main argv nftw_ret).walk = none → (main argv nftw_ret).status = EXIT_FAILURE)
    ∧ ((main argv nftw_ret).status = EXIT_SUCCESS ∨ (main argv nftw_ret).status = EXIT_FAILURE)
    ∧ (∀ prog option root rest,
        argv = prog :: option :: root :: rest → option ∉ command_options →
        (main argv nftw_ret).status = EXIT_FAILURE ∧ (main argv nftw_ret).walk = none
          ∧ (main argv nftw_ret).err = [invalid_line])
    ∧ (∀ prog root rest,
        argv = prog :: "-ext".toList :: root :: rest → rest.length ≠ 1 →
        (main argv nftw_ret).status = EXIT_FAILURE ∧ (main argv nftw_ret).walk = none
          ∧ (main argv nftw_ret).err = [invalid_line]) := by
  have hcases : ∀ prog option root rest, argv = prog :: option :: root :: rest →
      (option = "-ls".toList ∧ main argv nftw_ret
          = { status := EXIT_SUCCESS, walk := some (root.take MAX_PATH, Callback.list),
              search_ext := none, err := [] })
      ∨ (option = "-ext".toList ∧ rest.length = 1 ∧ main argv nftw_ret
          = { status := EXIT_SUCCESS, walk := some (root.take MAX_PATH, Callback.ext),
              search_ext := rest.head?, err := [] })
      ∨ (option ≠ "-ls".toList ∧ ¬ (option = "-ext".toList ∧ rest.length = 1)
          ∧ main argv nftw_ret
            = { status := EXIT_FAILURE, walk := none, search_ext := none,
                err := [invalid_line] }) := by
    intro prog option root rest h
    subst h
    simp only [main]
    by_cases h1 : strcmp option "-ls".toList = 0
    · left
      rw [if_pos h1]
      exact ⟨(strcmp_eq_zero_iff _ _).mp h1, rfl⟩
    · right
      rw [if_neg h1]
      have hls : option ≠ "-ls".toList := fun h => h1 ((strcmp_eq_zero_iff _ _).mpr h)
      by_cases h2 : strcmp option "-ext".toList = 0
          ∧ (prog :: option :: root :: rest).length = 4
      · left
        rw [if_pos h2]
        refine ⟨(strcmp_eq_zero_iff _ _).mp h2.1, ?_, rfl⟩
        have := h2.2
        simp only [List.length_cons] at this
        omega
      · right
        rw [if_neg h2]
        refine ⟨hls, ?_, rfl⟩
        rintro ⟨h3, h4⟩
        apply h2
        refine ⟨(strcmp_eq_zero_iff _ _).mpr h3, ?_⟩
        simp only [List.length_cons]
        omega
  have hshort : argv.length < 3 → main argv nftw_ret
      = { status := EXIT_FAILURE, walk := none, search_ext := none, err := [usage_line] } := by
    intro h
    match argv, h with
    | [], _ => rfl
    | [_], _ => rfl
    | [_, _], _ => rfl
    | _ :: _ :: _ :: _, h =>
      simp only [List.length_cons] at h
      omega
  have hall : (main argv nftw_ret).status = EXIT_FAILURE ∧ (main argv nftw_ret).walk = none
      ∨ (main argv nftw_ret).status = EXIT_SUCCESS ∧ (main argv nftw_ret).walk ≠ none := by
    rcases argv with _ | ⟨prog, _ | ⟨option, _ | ⟨root, rest⟩⟩⟩
    · exact Or.inl ⟨rfl, rfl⟩
    · exact Or.inl ⟨rfl, rfl⟩
    · exact Or.inl ⟨rfl, rfl⟩
    · rcases hcases prog option root rest rfl with ⟨-, h⟩ | ⟨-, -, h⟩ | ⟨-, -, h⟩
      · rw [h]
        exact Or.inr ⟨rfl, by simp⟩
      · rw [h]
        exact Or.inr ⟨rfl, by simp⟩
      · rw [h]
        exact Or.inl ⟨rfl, rfl⟩
  refine ⟨?_, ?_, ?_, ?_, ?_, ?_, ?_, ?_, ?_⟩
  · intro h
    rw [hshort h]
    exact ⟨rfl, rfl, rfl⟩
  · intro prog root rest h
    rcases hcases prog _ root rest h with ⟨-, h2⟩ | ⟨h1, -, -⟩ | ⟨h1, -, -⟩
    · rw [h2]
      exact ⟨rfl, rfl⟩
    · exact absurd h1 (by decide)
    · exact absurd rfl h1
  · intro prog root ext h
    rcases hcases prog _ root [ext] h with ⟨h1, -⟩ | ⟨-, -, h2⟩ | ⟨-, h1, -⟩
    · exact absurd h1 (by decide)
    · rw [h2]
      exact ⟨rfl, rfl, rfl⟩
    · exact absurd ⟨rfl, rfl⟩ h1
  · intro other
    rfl
  · intro hne
    rcases hall with h | h
    · exact h.2
    · rw [h.1] at hne
      exact absurd rfl hne
  · intro hw
    rcases hall with h | h
    · exact h.1
    · exact absurd hw h.2
  · rcases hall with h | h
    · exact Or.inr h.1
    · exact Or.inl h.1
  · intro prog option root rest h hnot
    have hls : option ≠ "-ls".toList := by
      intro hx
      apply hnot
      rw [hx]
      decide
    have hext : option ≠ "-ext".toList := by
      intro hx
      apply hnot
      rw [hx]
      decide
    rcases hcases prog option root rest h with ⟨h1, -⟩ | ⟨h1, -, -⟩ | ⟨-, -, h2⟩
    · exact absurd h1 hls
    · exact absurd h1 hext
    · rw [h2]
      exact ⟨rfl, rfl, rfl⟩
  · intro prog root rest h hlen
    rcases hcases prog _ root rest h with ⟨h1, -⟩ | ⟨-, h1, -⟩ | ⟨-, -, h2⟩
    · exact absurd h1 (by decide)
    · exact absurd h1 hlen
    · rw [h2]
      exact ⟨rfl, rfl, rfl⟩

/-- Witness for `main_status`: `dtree -ls` alone is a usage error and starts no walk;
`dtree -frobnicate root` names no option of the command surface, and `dtree -ext root` lacks
the extension: both are refused with a non-zero status and no walk. -/
theorem main_status_witness :
    ["dtree".toList, "-ls".toList].length < 3
    ∧ (main ["dtree".toList, "-ls".toList] 0).status = EXIT_FAILURE
    ∧ (main ["dtree".toList, "-ls".toList] 0).walk = none
    ∧ "-frobnicate".toList ∉ command_options
    ∧ (main ["dtree".toList, "-frobnicate".toList, "root".toList] 0).status = EXIT_FAILURE
    ∧ (main ["dtree".toList, "-frobnicate".toList, "root".toList] 0).walk = none
    ∧ (main ["dtree".toList, "-ext".toList, "root".toList] 0).status = EXIT_FAILURE :=
  ⟨by decide,
   ((main_status ["dtree".toList, "-ls".toList] 0).1 (by decide)).1,
   ((main_status ["dtree".toList, "-ls".toList] 0).1 (by decide)).2.1,
   by decide,
   ((main_status ["dtree".toList, "-frobnicate".toList, "root".toList] 0).2.2.2.2.2.2.2.1
      _ _ _ _ rfl (by decide)).1,
   ((main_status ["dtree".toList, "-frobnicate".toList, "root".toList] 0).2.2.2.2.2.2.2.1
      _ _ _ _ rfl (by decide)).2.1,
   ((main_status ["dtree".toList, "-ext".toList, "root".toList] 0).2.2.2.2.2.2.2.2
      _ _ _ rfl (by decide)).1⟩

/-- C2 (counterexample): the arguments `-ls /nonexistent` are valid and the walk fails
(`nftw` returns -1), yet `main` returns `EXIT_SUCCESS`. -/
theorem main_ignores_walk_failure_counterexample :
    (main ["dtree".toList, "-ls".toList, "/nonexistent".toList] (-1)).walk
        = some ("/nonexistent".toList, Callback.list)
    ∧ (main ["dtree".toList, "-ls".toList, "/nonexistent".toList] (-1)).status = 0 := by
  refine ⟨by decide, by decide⟩

end DTree
